import Mathlib

/-!
A shallow embedding of `src/components/structures/PostPanel.js` together with
proofs about its timeline-assembly pipeline: the visibility filter
(`_shouldShowEvent`), the continuation detector (`shouldFormContinuation`),
the read-receipt aggregation (`_getReadReceiptsForEvent`,
`_getReadReceiptsByShownEvent`), the ghost read-marker lifecycle
(`componentDidUpdate` / `_onGhostTransitionEnd`), the read-marker node
builder (`_readMarkerForEvent`), and the render-list assembly
(`_getEventTiles` / `_getTilesForEvent` / `_getNextEventInfo`).

JavaScript objects with string keys are modelled as association lists with
insertion-order semantics (`alookup` / `upsert`, where updating an existing
key keeps its position and a fresh key is appended, matching JS object key
order). A JS function that can throw (iterating `null`) is modelled as an
`Option`-returning function, `none` meaning the exception.
-/

set_option maxHeartbeats 1000000

namespace PostPanel

/-- A `RoomMember` as used by the panel: the `mxEvent.sender` object, with
`userId`, `name` and `getMxcAvatarUrl()`. -/
structure Sender where
  userId : String
  name : String
  mxcAvatarUrl : Option String
deriving DecidableEq, Repr

/-- A `MatrixEvent` restricted to the fields this component reads.
`senderId` is `getSender()` (the raw sender string), `sender` the
`RoomMember` object, `ts` is `getTs()`, `redacted` is `isRedacted()`,
`inReplyTo` models `getWireContent()["m.relates_to"]["m.in_reply_to"]`
(outer `Option`: presence of `m.in_reply_to`; inner: its `event_id`),
`status` is the local-echo `.status` field (`some` = truthy), and
`associatedStatus` is `getAssociatedStatus()`. -/
structure Event where
  id : String
  senderId : Option String
  sender : Option Sender
  type : String
  ts : Int
  redacted : Bool
  inReplyTo : Option (Option String)
  status : Option String
  associatedStatus : Option String
deriving DecidableEq, Repr

/-- A raw receipt as returned by `room.getReceiptsForEvent`: `userId` may be
missing/falsy, `type` is the receipt type, `ts` models `r.data && r.data.ts`. -/
structure RawReceipt where
  userId : Option String
  type : String
  ts : Option Int
deriving DecidableEq, Repr

/-- A processed receipt record `{userId, roomMember, ts}` as pushed by
`_getReadReceiptsForEvent`. -/
structure Receipt where
  userId : String
  roomMember : Option String
  ts : Int
deriving DecidableEq, Repr

/-- The slice of the `room` prop the component uses: `getReceiptsForEvent`
and `getMember` (a member is represented by its display name). -/
structure Room where
  receiptsForEvent : Event → List RawReceipt
  getMember : String → Option String

/-- The ambient context of a render cycle: the relevant props, settings and
external collaborators (`MatrixClientPeg`, `haveTileForEvent`,
`shouldHideEvent`). -/
structure Ctx where
  myUserId : String
  ignoredUsers : List String
  showHiddenEventsInTimeline : Bool
  haveTileForEvent : Event → Bool
  shouldHideEvent : Event → Bool
  highlightedEventId : Option String
  readMarkerEventId : Option String
  readMarkerVisible : Bool
  showReadReceipts : Bool
  room : Option Room

/-- `CONTINUATION_MAX_INTERVAL = 5 * 60 * 1000` (line 38). -/
def CONTINUATION_MAX_INTERVAL : Int := 5 * 60 * 1000

/-- `continuedTypes` (line 39). -/
def continuedTypes : List String := ["m.sticker", "m.room.message"]

/-- `messageTypes` (line 40). -/
def messageTypes : List String := ["m.sticker", "m.room.message"]

/-- `shouldFormContinuation(prevEvent, mxEvent)` (lines 44-67). -/
def shouldFormContinuation (haveTile : Event → Bool) (prevEvent : Option Event)
    (mxEvent : Event) : Bool :=
  match prevEvent with
  | none => false
  | some prev =>
    match prev.sender, mxEvent.sender with
    | some prevSender, some sender =>
      if mxEvent.ts - prev.ts > CONTINUATION_MAX_INTERVAL then false
      else if mxEvent.redacted ≠ prev.redacted then false
      else if mxEvent.type ≠ prev.type ∧
          (mxEvent.type ∉ continuedTypes ∨ prev.type ∉ continuedTypes) then false
      else if sender.userId ≠ prevSender.userId ∨ sender.name ≠ prevSender.name ∨
          sender.mxcAvatarUrl ≠ prevSender.mxcAvatarUrl then false
      else if ¬ haveTile prev then false
      else true
    | _, _ => false

/-- `_shouldShowEvent(mxEv)` (lines 365-395). -/
def shouldShowEvent (c : Ctx) (mxEv : Event) : Bool :=
  if (match mxEv.sender with
      | some s => c.ignoredUsers.contains s.userId
      | none => false) then false
  else if mxEv.type ∉ messageTypes then false
  else if mxEv.inReplyTo.isSome then false
  else if mxEv.redacted then false
  else if c.showHiddenEventsInTimeline then true
  else if ¬ c.haveTileForEvent mxEv then false
  else if c.highlightedEventId = some mxEv.id then true
  else ¬ c.shouldHideEvent mxEv

/-- The ghost-set update performed by `componentDidUpdate` (lines 223-231):
when the previous marker was visible and the marker event id changed, the
previous marker event id is pushed onto `ghostReadMarkers`. -/
def componentDidUpdateGhosts (prevReadMarkerVisible : Bool)
    (prevReadMarkerEventId newReadMarkerEventId : Option String)
    (ghostReadMarkers : List (Option String)) : List (Option String) :=
  if prevReadMarkerVisible ∧ newReadMarkerEventId ≠ prevReadMarkerEventId then
    ghostReadMarkers ++ [prevReadMarkerEventId]
  else
    ghostReadMarkers

/-- `_onGhostTransitionEnd` (lines 466-472): filters out every ghost entry
equal to the finished event id. -/
def onGhostTransitionEnd (finishedEventId : String)
    (ghostReadMarkers : List (Option String)) : List (Option String) :=
  ghostReadMarkers.filter (fun eid => eid ≠ some finishedEventId)

/-- C5: `shouldFormContinuation(prev, curr)` returns false iff at least one
of: `prev` absent; `prev` or `curr` lacks sender info; time gap over 5
minutes (300000 ms); redacted flags differ; types differ and at least one
type is outside the continuable set; sender userId, display name or avatar
reference differ; or `prev` has no renderable tile.
In particular it is false whenever the gap exceeds 5 minutes. -/
theorem shouldFormContinuation_false_iff :
    (∀ (haveTile : Event → Bool) (prevEvent : Option Event) (mxEvent : Event),
      shouldFormContinuation haveTile prevEvent mxEvent = false ↔
        (prevEvent = none ∨
          ∃ prev, prevEvent = some prev ∧
            (prev.sender = none ∨ mxEvent.sender = none ∨
              mxEvent.ts - prev.ts > 300000 ∨
              mxEvent.redacted ≠ prev.redacted ∨
              (mxEvent.type ≠ prev.type ∧
                (mxEvent.type ∉ (["m.room.message", "m.sticker"] : List String) ∨
                  prev.type ∉ (["m.room.message", "m.sticker"] : List String))) ∨
              (∃ ps ms, prev.sender = some ps ∧ mxEvent.sender = some ms ∧
                (ms.userId ≠ ps.userId ∨ ms.name ≠ ps.name ∨
                  ms.mxcAvatarUrl ≠ ps.mxcAvatarUrl)) ∨
              haveTile prev = false))) ∧
    (∀ (haveTile : Event → Bool) (prev mxEvent : Event),
      mxEvent.ts - prev.ts > 300000 →
        shouldFormContinuation haveTile (some prev) mxEvent = false) := by
  have hT : ∀ t : String,
      t ∈ continuedTypes ↔ t ∈ (["m.room.message", "m.sticker"] : List String) := by
    intro t
    simp only [continuedTypes, List.mem_cons, List.not_mem_nil, or_false]
    tauto
  have hCMI : CONTINUATION_MAX_INTERVAL = (300000 : Int) := by
    norm_num [CONTINUATION_MAX_INTERVAL]
  have coreSome : ∀ (haveTile : Event → Bool) (prev mxEvent : Event),
      shouldFormContinuation haveTile (some prev) mxEvent = false ↔
        (prev.sender = none ∨ mxEvent.sender = none ∨
          mxEvent.ts - prev.ts > 300000 ∨
          mxEvent.redacted ≠ prev.redacted ∨
          (mxEvent.type ≠ prev.type ∧
            (mxEvent.type ∉ (["m.room.message", "m.sticker"] : List String) ∨
              prev.type ∉ (["m.room.message", "m.sticker"] : List String))) ∨
          (∃ ps ms, prev.sender = some ps ∧ mxEvent.sender = some ms ∧
            (ms.userId ≠ ps.userId ∨ ms.name ≠ ps.name ∨
              ms.mxcAvatarUrl ≠ ps.mxcAvatarUrl)) ∨
          haveTile prev = false) := by
    intro haveTile prev mxEvent
    match hps : prev.sender, hms : mxEvent.sender with
    | none, none =>
      refine iff_of_true (by simp [shouldFormContinuation, hps, hms]) (Or.inl rfl)
    | none, some ms =>
      refine iff_of_true (by simp [shouldFormContinuation, hps, hms]) (Or.inl rfl)
    | some ps, none =>
      refine iff_of_true (by simp [shouldFormContinuation, hps, hms]) (Or.inr (Or.inl rfl))
    | some ps, some ms =>
      simp only [shouldFormContinuation, hps, hms, hCMI]
      split_ifs with h1 h2 h3 h4 h5
      · exact iff_of_true rfl (Or.inr (Or.inr (Or.inl h1)))
      · exact iff_of_true rfl (Or.inr (Or.inr (Or.inr (Or.inl h2))))
      · refine iff_of_true rfl
          (Or.inr (Or.inr (Or.inr (Or.inr (Or.inl ⟨h3.1, ?_⟩)))))
        exact h3.2.imp (fun hnc hl => hnc ((hT _).mpr hl)) (fun hnc hl => hnc ((hT _).mpr hl))
      · exact iff_of_true rfl
          (Or.inr (Or.inr (Or.inr (Or.inr (Or.inr (Or.inl ⟨ps, ms, rfl, rfl, h4⟩))))))
      · rw [false_iff]
        rintro (h | h | h | h | h | h | h)
        · exact h
        · exact h
        · exact h1 h
        · exact h2 h
        · refine h3 ⟨h.1, ?_⟩
          exact h.2.imp (fun hnc hl => hnc ((hT _).mp hl)) (fun hnc hl => hnc ((hT _).mp hl))
        · obtain ⟨ps', ms', hps', hms', hd⟩ := h
          obtain rfl : ps' = ps := by injection hps'.symm
          obtain rfl : ms' = ms := by injection hms'.symm
          exact h4 hd
        · exact absurd h (by simp [h5])
      · refine iff_of_true rfl
          (Or.inr (Or.inr (Or.inr (Or.inr (Or.inr (Or.inr ?_))))))
        simpa using h5
  have core : ∀ (haveTile : Event → Bool) (prevEvent : Option Event) (mxEvent : Event),
      shouldFormContinuation haveTile prevEvent mxEvent = false ↔
        (prevEvent = none ∨
          ∃ prev, prevEvent = some prev ∧
            (prev.sender = none ∨ mxEvent.sender = none ∨
              mxEvent.ts - prev.ts > 300000 ∨
              mxEvent.redacted ≠ prev.redacted ∨
              (mxEvent.type ≠ prev.type ∧
                (mxEvent.type ∉ (["m.room.message", "m.sticker"] : List String) ∨
                  prev.type ∉ (["m.room.message", "m.sticker"] : List String))) ∨
              (∃ ps ms, prev.sender = some ps ∧ mxEvent.sender = some ms ∧
                (ms.userId ≠ ps.userId ∨ ms.name ≠ ps.name ∨
                  ms.mxcAvatarUrl ≠ ps.mxcAvatarUrl)) ∨
              haveTile prev = false)) := by
    intro haveTile prevEvent mxEvent
    cases prevEvent with
    | none => simp [shouldFormContinuation]
    | some p =>
      rw [coreSome haveTile p mxEvent]
      constructor
      · intro h
        exact Or.inr ⟨p, rfl, h⟩
      · rintro (h | ⟨p', hpe, h⟩)
        · exact Option.noConfusion h
        · obtain rfl : p' = p := by injection hpe.symm
          exact h
  refine ⟨core, ?_⟩
  intro haveTile prev mxEvent hgap
  rw [core]
  exact Or.inr ⟨prev, rfl, Or.inr (Or.inr (Or.inl hgap))⟩

/-- C5 witness: the gap clause applied at a concrete pair of events. -/
theorem shouldFormContinuation_false_iff_witness :
    shouldFormContinuation (fun _ => true)
      (some { id := "$a", senderId := some "@u:hs", sender := some ⟨"@u:hs", "U", none⟩,
              type := "m.room.message", ts := 0, redacted := false, inReplyTo := none,
              status := none, associatedStatus := none })
      { id := "$c", senderId := some "@u:hs", sender := some ⟨"@u:hs", "U", none⟩,
        type := "m.room.message", ts := 400000, redacted := false, inReplyTo := none,
        status := none, associatedStatus := none } = false :=
  shouldFormContinuation_false_iff.2 (fun _ => true) _ _ (by decide)

/-- C6: ghost read-marker lifecycle. Moving the marker away from id A while
the marker was visible appends A to the ghost set exactly once (counts of
all other ids unchanged); when no such move happens the ghost set is
untouched, so an id enters the set only via a marker move; a
transition-end signal for A removes exactly the entries equal to A
(matching by event id, leaving every other ghost's count unchanged). -/
theorem ghost_lifecycle :
    ∀ (prevVisible : Bool) (prevId newId : Option String)
      (ghosts : List (Option String)) (finishedEventId : String),
      (prevVisible = true → newId ≠ prevId →
        componentDidUpdateGhosts prevVisible prevId newId ghosts = ghosts ++ [prevId] ∧
        (componentDidUpdateGhosts prevVisible prevId newId ghosts).count prevId
          = ghosts.count prevId + 1) ∧
      (∀ x, x ≠ prevId →
        (componentDidUpdateGhosts prevVisible prevId newId ghosts).count x
          = ghosts.count x) ∧
      (¬(prevVisible = true ∧ newId ≠ prevId) →
        componentDidUpdateGhosts prevVisible prevId newId ghosts = ghosts) ∧
      onGhostTransitionEnd finishedEventId ghosts
        = ghosts.filter (fun eid => eid ≠ some finishedEventId) ∧
      (∀ x, x ≠ some finishedEventId →
        (onGhostTransitionEnd finishedEventId ghosts).count x = ghosts.count x) ∧
      some finishedEventId ∉ onGhostTransitionEnd finishedEventId ghosts := by
  intro prevVisible prevId newId ghosts finishedEventId
  refine ⟨?_, ?_, ?_, rfl, ?_, ?_⟩
  · intro hv hne
    constructor
    · simp [componentDidUpdateGhosts, hv, hne]
    · simp [componentDidUpdateGhosts, hv, hne]
  · intro x hx
    by_cases hmove : prevVisible = true ∧ newId ≠ prevId
    · have : componentDidUpdateGhosts prevVisible prevId newId ghosts = ghosts ++ [prevId] := by
        simp [componentDidUpdateGhosts, hmove.1, hmove.2]
      rw [this, List.count_append]
      simp [List.count_singleton', hx]
    · simp [componentDidUpdateGhosts, hmove]
  · intro hmove
    simp [componentDidUpdateGhosts, hmove]
  · intro x hx
    unfold onGhostTransitionEnd
    induction ghosts with
    | nil => rfl
    | cons g gs ih =>
      by_cases hg : g = some finishedEventId
      · subst hg
        rw [List.filter_cons_of_neg (by simp), ih, List.count_cons]
        have hbeq : (some finishedEventId == x) = false := by
          simp only [beq_eq_false_iff_ne]
          exact fun hh => hx hh.symm
        rw [hbeq]
        simp
      · rw [List.filter_cons_of_pos (by simp [hg]), List.count_cons, List.count_cons, ih]
  · simp [onGhostTransitionEnd, List.mem_filter]

/-- C6 witness: the lifecycle at concrete inputs — a marker move from
event a to event b records a ghost for a, and a completion signal for a
removes both copies of a while keeping c. -/
theorem ghost_lifecycle_witness :
    componentDidUpdateGhosts true (some "$a") (some "$b") [some "$c"]
        = [some "$c", some "$a"] ∧
      onGhostTransitionEnd "$a" [some "$a", some "$c", some "$a"] = [some "$c"] := by
  constructor
  · have h := (ghost_lifecycle true (some "$a") (some "$b") [some "$c"] "$a").1
      (by decide) (by decide)
    rw [h.1]
    rfl
  · have h := (ghost_lifecycle true (some "$a") (some "$b")
      [some "$a", some "$c", some "$a"] "$a").2.2.2.1
    rw [h]
    rfl

/-- Lookup in a JS-object model (first entry with the given key). -/
def alookup {α : Type} (k : String) : List (String × α) → Option α
  | [] => none
  | (k', v) :: rest => if k' = k then some v else alookup k rest

/-- Key update in a JS-object model: an existing key keeps its position,
a fresh key is appended at the end (JS object insertion order). -/
def upsert {α : Type} (k : String) (v : α) : List (String × α) → List (String × α)
  | [] => [(k, v)]
  | (k', v') :: rest => if k' = k then (k, v) :: rest else (k', v') :: upsert k v rest

theorem alookup_upsert {α : Type} (k k' : String) (v : α) (m : List (String × α)) :
    alookup k (upsert k' v m) = if k' = k then some v else alookup k m := by
  induction m with
  | nil =>
    by_cases h : k' = k
    · simp [upsert, alookup, h]
    · simp [upsert, alookup, h]
  | cons p rest ih =>
    obtain ⟨k₀, v₀⟩ := p
    by_cases h0 : k₀ = k'
    · subst h0
      by_cases h : k₀ = k
      · simp [upsert, alookup, h]
      · simp [upsert, alookup, h]
    · by_cases h : k₀ = k
      · subst h
        have hkk : ¬ k' = k₀ := fun hh => h0 hh.symm
        simp [upsert, alookup, h0, hkk]
      · simp [upsert, alookup, h0, h, ih]

theorem alookup_upsert_same {α : Type} (k : String) (v : α) (m : List (String × α)) :
    alookup k (upsert k v m) = some v := by
  rw [alookup_upsert]
  simp

theorem alookup_upsert_other {α : Type} (k k' : String) (v : α) (m : List (String × α))
    (h : k' ≠ k) : alookup k (upsert k' v m) = alookup k m := by
  rw [alookup_upsert, if_neg h]

theorem upsert_of_alookup_none {α : Type} (k : String) (v : α) (m : List (String × α))
    (h : alookup k m = none) : upsert k v m = m ++ [(k, v)] := by
  induction m with
  | nil => rfl
  | cons p rest ih =>
    obtain ⟨k₀, v₀⟩ := p
    by_cases h0 : k₀ = k
    · subst h0
      simp [alookup] at h
    · simp only [alookup, if_neg h0] at h
      simp [upsert, h0, ih h]

theorem alookup_isSome_of_mem {α : Type} (k : String) (v : α) (m : List (String × α))
    (h : (k, v) ∈ m) : (alookup k m).isSome := by
  induction m with
  | nil => simp at h
  | cons p rest ih =>
    obtain ⟨k₀, v₀⟩ := p
    rcases List.mem_cons.mp h with h | h
    · obtain ⟨rfl, rfl⟩ := Prod.mk.injEq .. ▸ h
      simp [alookup]
    · by_cases h0 : k₀ = k
      · simp [alookup, h0]
      · simpa [alookup, h0] using ih h

theorem mem_keys_upsert {α : Type} (a k : String) (v : α) (m : List (String × α)) :
    a ∈ (upsert k v m).map Prod.fst ↔ a = k ∨ a ∈ m.map Prod.fst := by
  induction m with
  | nil => simp [upsert]
  | cons p rest ih =>
    obtain ⟨k₀, v₀⟩ := p
    by_cases h0 : k₀ = k
    · subst h0
      simp [upsert]
    · simp only [upsert, if_neg h0, List.map_cons, List.mem_cons]
      rw [ih]
      tauto

/-- `_getReadReceiptsForEvent(event)` (lines 677-701): `null` when there is
no room; otherwise the room's receipts for the event filtered to read
receipts from other, non-ignored users. -/
def getReadReceiptsForEvent (c : Ctx) (event : Event) : Option (List Receipt) :=
  match c.room with
  | none => none
  | some room => some <|
      (room.receiptsForEvent event).filterMap fun r =>
        match r.userId with
        | none => none
        | some uid =>
          if r.type ≠ "m.read" ∨ uid = c.myUserId then none
          else if c.ignoredUsers.contains uid then none
          else some { userId := uid, roomMember := room.getMember uid, ts := r.ts.getD 0 }

/-- An entry of the per-user cache `_readReceiptsByUserId`:
`{lastShownEventId, receipt}`. -/
structure UserEntry where
  lastShownEventId : String
  receipt : Receipt
deriving DecidableEq, Repr

abbrev ReceiptsByEvent := List (String × List Receipt)

abbrev ReceiptsByUser := List (String × UserEntry)

/-- The forward loop of `_getReadReceiptsByShownEvent` (lines 710-731):
walks the full event log maintaining `lastShownEventId`, appends each
event's receipts to the bucket of the last shown event id (skipping events
before any shown event), and records each receipt under its user id.
Returns `none` when `_getReadReceiptsForEvent` returns `null` and the code
would throw (`for ... of null`). -/
def forwardPass (c : Ctx) :
    List Event → Option String → ReceiptsByEvent → ReceiptsByUser →
      Option (ReceiptsByEvent × ReceiptsByUser)
  | [], _, receiptsByEvent, receiptsByUserId => some (receiptsByEvent, receiptsByUserId)
  | event :: rest, lastShownEventId, receiptsByEvent, receiptsByUserId =>
    let lastShownEventId' :=
      if shouldShowEvent c event then some event.id else lastShownEventId
    match lastShownEventId' with
    | none => forwardPass c rest none receiptsByEvent receiptsByUserId
    | some lsid =>
      match getReadReceiptsForEvent c event with
      | none => none
      | some newReceipts =>
        let existingReceipts := (alookup lsid receiptsByEvent).getD []
        forwardPass c rest (some lsid)
          (upsert lsid (existingReceipts ++ newReceipts) receiptsByEvent)
          (newReceipts.foldl (fun m r => upsert r.userId ⟨lsid, r⟩ m) receiptsByUserId)

/-- One step of the fallback-recovery loop (lines 739-747): a user id
absent from the freshly built cache gets its previous
`{lastShownEventId, receipt}` re-inserted into the event bucket and the
new user cache. -/
def fallbackStep (acc : ReceiptsByEvent × ReceiptsByUser) (p : String × UserEntry) :
    ReceiptsByEvent × ReceiptsByUser :=
  if (alookup p.1 acc.2).isSome then acc
  else
    let existingReceipts := (alookup p.2.lastShownEventId acc.1).getD []
    (upsert p.2.lastShownEventId (existingReceipts ++ [p.2.receipt]) acc.1,
      upsert p.1 ⟨p.2.lastShownEventId, p.2.receipt⟩ acc.2)

/-- The fallback-recovery loop over the previous render's per-user cache. -/
def fallbackPass (previous : ReceiptsByUser) (acc : ReceiptsByEvent × ReceiptsByUser) :
    ReceiptsByEvent × ReceiptsByUser :=
  previous.foldl fallbackStep acc

/-- Stable insertion for the descending-by-`ts` sort of a receipt bucket:
the element goes after every earlier element with a strictly larger or
equal `ts`, matching `sort((r1, r2) => r2.ts - r1.ts)` with a stable
`Array.prototype.sort`. -/
def rrInsert (x : Receipt) : List Receipt → List Receipt
  | [] => [x]
  | y :: ys => if y.ts > x.ts then y :: rrInsert x ys else x :: y :: ys

/-- Stable descending-by-`ts` sort of a receipt bucket (lines 752-756). -/
def rrSort : List Receipt → List Receipt
  | [] => []
  | x :: xs => rrInsert x (rrSort xs)

/-- `_getReadReceiptsByShownEvent()` (lines 706-759): forward pass,
fallback recovery from the previous per-user cache, then per-bucket sort.
Returns the new `receiptsByEvent` and the new `_readReceiptsByUserId`;
`none` models the `TypeError` thrown when the room is absent. -/
def getReadReceiptsByShownEvent (c : Ctx) (events : List Event)
    (previousReceiptsByUser : ReceiptsByUser) :
    Option (ReceiptsByEvent × ReceiptsByUser) :=
  match forwardPass c events none [] [] with
  | none => none
  | some acc0 =>
    let acc := fallbackPass previousReceiptsByUser acc0
    some (acc.1.map (fun p => (p.1, rrSort p.2)), acc.2)

theorem forwardPass_nil (c : Ctx) (ls : Option String) (rbe : ReceiptsByEvent)
    (rbu : ReceiptsByUser) : forwardPass c [] ls rbe rbu = some (rbe, rbu) := rfl

theorem forwardPass_cons_shown (c : Ctx) (e : Event) (rest : List Event)
    (ls : Option String) (rbe : ReceiptsByEvent) (rbu : ReceiptsByUser)
    (h : shouldShowEvent c e = true) :
    forwardPass c (e :: rest) ls rbe rbu =
      match getReadReceiptsForEvent c e with
      | none => none
      | some newReceipts =>
        forwardPass c rest (some e.id)
          (upsert e.id (((alookup e.id rbe).getD []) ++ newReceipts) rbe)
          (newReceipts.foldl (fun m r => upsert r.userId ⟨e.id, r⟩ m) rbu) := by
  simp [forwardPass, h]

theorem forwardPass_cons_hidden_none (c : Ctx) (e : Event) (rest : List Event)
    (rbe : ReceiptsByEvent) (rbu : ReceiptsByUser)
    (h : shouldShowEvent c e = false) :
    forwardPass c (e :: rest) none rbe rbu = forwardPass c rest none rbe rbu := by
  simp [forwardPass, h]

theorem forwardPass_cons_hidden_some (c : Ctx) (e : Event) (rest : List Event)
    (lsid : String) (rbe : ReceiptsByEvent) (rbu : ReceiptsByUser)
    (h : shouldShowEvent c e = false) :
    forwardPass c (e :: rest) (some lsid) rbe rbu =
      match getReadReceiptsForEvent c e with
      | none => none
      | some newReceipts =>
        forwardPass c rest (some lsid)
          (upsert lsid (((alookup lsid rbe).getD []) ++ newReceipts) rbe)
          (newReceipts.foldl (fun m r => upsert r.userId ⟨lsid, r⟩ m) rbu) := by
  simp [forwardPass, h]

theorem fallbackPass_nil (acc : ReceiptsByEvent × ReceiptsByUser) :
    fallbackPass [] acc = acc := rfl

theorem fallbackPass_cons (p : String × UserEntry) (rest : ReceiptsByUser)
    (acc : ReceiptsByEvent × ReceiptsByUser) :
    fallbackPass (p :: rest) acc = fallbackPass rest (fallbackStep acc p) := rfl

/-- With no room, the forward pass throws as soon as a `lastShownEventId`
is (or becomes) established. -/
theorem forwardPass_none_of_room_none (c : Ctx) (hroom : c.room = none) :
    ∀ (l : List Event) (ls : Option String) (rbe : ReceiptsByEvent)
      (rbu : ReceiptsByUser),
      ((ls.isSome ∧ l ≠ []) ∨ ∃ e ∈ l, shouldShowEvent c e = true) →
      forwardPass c l ls rbe rbu = none := by
  intro l
  induction l with
  | nil =>
    intro ls rbe rbu h
    rcases h with ⟨_, hne⟩ | ⟨e, he, _⟩
    · exact absurd rfl hne
    · simp at he
  | cons e rest ih =>
    intro ls rbe rbu h
    have hrr : getReadReceiptsForEvent c e = none := by
      simp [getReadReceiptsForEvent, hroom]
    by_cases hshow : shouldShowEvent c e = true
    · rw [forwardPass_cons_shown c e rest ls rbe rbu hshow, hrr]
    · have hshow' : shouldShowEvent c e = false := by
        simpa using hshow
      match ls with
      | some lsid =>
        rw [forwardPass_cons_hidden_some c e rest lsid rbe rbu hshow', hrr]
      | none =>
        rw [forwardPass_cons_hidden_none c e rest rbe rbu hshow']
        apply ih
        rcases h with ⟨hsome, _⟩ | ⟨e', he', hs'⟩
        · simp at hsome
        · rcases List.mem_cons.mp he' with rfl | he'
          · exact absurd hs' hshow
          · exact Or.inr ⟨e', he', hs'⟩

/-- C10: the receipt aggregation is total only when a room is supplied.
With `showReadReceipts` on and no `room` prop, `_getReadReceiptsForEvent`
returns `null` for every event, and on any log with at least one shown
event `_getReadReceiptsByShownEvent` throws (modelled as `none`) instead
of degrading to empty receipts. -/
theorem room_required_for_receipts (c : Ctx) (events : List Event)
    (previous : ReceiptsByUser)
    (hroom : c.room = none) (hsrr : c.showReadReceipts = true)
    (hshown : ∃ e ∈ events, shouldShowEvent c e = true) :
    (∀ event, getReadReceiptsForEvent c event = none) ∧
      getReadReceiptsByShownEvent c events previous = none := by
  constructor
  · intro event
    simp [getReadReceiptsForEvent, hroom]
  · unfold getReadReceiptsByShownEvent
    rw [forwardPass_none_of_room_none c hroom events none [] [] (Or.inr hshown)]

/-- A sample event that the visibility filter accepts. -/
def eMsg : Event :=
  { id := "$m", senderId := some "@me:hs", sender := none, type := "m.room.message",
    ts := 0, redacted := false, inReplyTo := none, status := none,
    associatedStatus := none }

/-- A context with `showReadReceipts` on and no room. -/
def cNoRoom : Ctx :=
  { myUserId := "@me:hs", ignoredUsers := [], showHiddenEventsInTimeline := true,
    haveTileForEvent := fun _ => true, shouldHideEvent := fun _ => false,
    highlightedEventId := none, readMarkerEventId := none,
    readMarkerVisible := false, showReadReceipts := true, room := none }

/-- C10 witness: the hypotheses and the thrown aggregation at a concrete
context and one-event log. -/
theorem room_required_for_receipts_witness :
    cNoRoom.room = none ∧ cNoRoom.showReadReceipts = true ∧
      (∃ e ∈ [eMsg], shouldShowEvent cNoRoom e = true) ∧
      getReadReceiptsByShownEvent cNoRoom [eMsg] [] = none := by
  refine ⟨rfl, rfl, ⟨eMsg, by decide, by decide⟩, ?_⟩
  exact (room_required_for_receipts cNoRoom [eMsg] [] rfl rfl
    ⟨eMsg, by decide, by decide⟩).2

/-- Forward-pass bucket keys come from the initial map, the incoming
`lastShownEventId`, or a shown event of the processed log. -/
theorem forwardPass_keys (c : Ctx) :
    ∀ (l : List Event) (ls : Option String) (rbe0 : ReceiptsByEvent)
      (rbu0 : ReceiptsByUser) (rbe1 : ReceiptsByEvent) (rbu1 : ReceiptsByUser),
      forwardPass c l ls rbe0 rbu0 = some (rbe1, rbu1) →
      ∀ k ∈ rbe1.map Prod.fst,
        k ∈ rbe0.map Prod.fst ∨ ls = some k ∨
          ∃ e ∈ l, shouldShowEvent c e = true ∧ e.id = k := by
  intro l
  induction l with
  | nil =>
    intro ls rbe0 rbu0 rbe1 rbu1 h k hk
    rw [forwardPass_nil] at h
    obtain ⟨rfl, rfl⟩ : rbe0 = rbe1 ∧ rbu0 = rbu1 := by
      have := Option.some.inj h
      exact ⟨congrArg Prod.fst this, congrArg Prod.snd this⟩
    exact Or.inl hk
  | cons e rest ih =>
    intro ls rbe0 rbu0 rbe1 rbu1 h k hk
    by_cases hshow : shouldShowEvent c e = true
    · rw [forwardPass_cons_shown c e rest ls rbe0 rbu0 hshow] at h
      cases hrr : getReadReceiptsForEvent c e with
      | none =>
        rw [hrr] at h
        exact absurd h (by simp)
      | some newReceipts =>
        rw [hrr] at h
        have := ih (some e.id) _ _ rbe1 rbu1 h k hk
        rcases this with hmem | hls | ⟨e', he', hs', hid⟩
        · rcases (mem_keys_upsert k e.id _ rbe0).mp hmem with rfl | hmem
          · exact Or.inr (Or.inr ⟨e, List.mem_cons_self e rest, hshow, rfl⟩)
          · exact Or.inl hmem
        · obtain rfl : e.id = k := Option.some.inj hls
          exact Or.inr (Or.inr ⟨e, List.mem_cons_self e rest, hshow, rfl⟩)
        · exact Or.inr (Or.inr ⟨e', List.mem_cons_of_mem e he', hs', hid⟩)
    · have hshow' : shouldShowEvent c e = false := by simpa using hshow
      match ls with
      | none =>
        rw [forwardPass_cons_hidden_none c e rest rbe0 rbu0 hshow'] at h
        have := ih none _ _ rbe1 rbu1 h k hk
        rcases this with hmem | hls | ⟨e', he', hs', hid⟩
        · exact Or.inl hmem
        · exact absurd hls (by simp)
        · exact Or.inr (Or.inr ⟨e', List.mem_cons_of_mem e he', hs', hid⟩)
      | some lsid =>
        rw [forwardPass_cons_hidden_some c e rest lsid rbe0 rbu0 hshow'] at h
        cases hrr : getReadReceiptsForEvent c e with
        | none =>
          rw [hrr] at h
          exact absurd h (by simp)
        | some newReceipts =>
          rw [hrr] at h
          have := ih (some lsid) _ _ rbe1 rbu1 h k hk
          rcases this with hmem | hls | ⟨e', he', hs', hid⟩
          · rcases (mem_keys_upsert k lsid _ rbe0).mp hmem with rfl | hmem
            · exact Or.inr (Or.inl rfl)
            · exact Or.inl hmem
          · obtain rfl : lsid = k := Option.some.inj hls
            exact Or.inr (Or.inl rfl)
          · exact Or.inr (Or.inr ⟨e', List.mem_cons_of_mem e he', hs', hid⟩)

/-- Fallback-pass bucket keys come from the incoming buckets or from a
cached `lastShownEventId` of the previous per-user cache. -/
theorem fallbackPass_keys :
    ∀ (previous : ReceiptsByUser) (acc : ReceiptsByEvent × ReceiptsByUser),
      ∀ k ∈ (fallbackPass previous acc).1.map Prod.fst,
        k ∈ acc.1.map Prod.fst ∨ ∃ p ∈ previous, p.2.lastShownEventId = k := by
  intro previous
  induction previous with
  | nil =>
    intro acc k hk
    exact Or.inl hk
  | cons p rest ih =>
    intro acc k hk
    rw [fallbackPass_cons] at hk
    rcases ih (fallbackStep acc p) k hk with hmem | ⟨p', hp', hid⟩
    · unfold fallbackStep at hmem
      by_cases hpres : (alookup p.1 acc.2).isSome
      · rw [if_pos hpres] at hmem
        exact Or.inl hmem
      · rw [if_neg hpres] at hmem
        simp only at hmem
        rcases (mem_keys_upsert k p.2.lastShownEventId _ acc.1).mp hmem with rfl | hmem
        · exact Or.inr ⟨p, List.mem_cons_self p rest, rfl⟩
        · exact Or.inl hmem
    · exact Or.inr ⟨p', List.mem_cons_of_mem p hp', hid⟩

theorem keys_map_sort (m : ReceiptsByEvent) :
    (m.map fun p => (p.1, rrSort p.2)).map Prod.fst = m.map Prod.fst := by
  induction m with
  | nil => rfl
  | cons p rest ih => simp [ih]

/-- C1, amended: every key of the returned `receiptsByEvent` is either the
id of a currently shown event of the log, or the cached
`lastShownEventId` of some entry of the previous per-user cache that the
fallback pass re-inserted. (The claim as stated — keys are always
currently-shown ids — fails on the fallback pass; see the
counterexample.) -/
theorem receiptsByEvent_keys_amended (c : Ctx) (events : List Event)
    (previous : ReceiptsByUser) (rbe : ReceiptsByEvent) (rbu : ReceiptsByUser)
    (h : getReadReceiptsByShownEvent c events previous = some (rbe, rbu)) :
    ∀ k ∈ rbe.map Prod.fst,
      (∃ e ∈ events, shouldShowEvent c e = true ∧ e.id = k) ∨
        ∃ p ∈ previous, p.2.lastShownEventId = k := by
  intro k hk
  unfold getReadReceiptsByShownEvent at h
  cases hf : forwardPass c events none [] [] with
  | none =>
    rw [hf] at h
    exact absurd h (by simp)
  | some acc0 =>
    rw [hf] at h
    simp only at h
    obtain ⟨hrbe, _⟩ : ((fallbackPass previous acc0).1.map fun p => (p.1, rrSort p.2)) = rbe ∧
        (fallbackPass previous acc0).2 = rbu := by
      have := Option.some.inj h
      exact ⟨congrArg Prod.fst this, congrArg Prod.snd this⟩
    rw [← hrbe] at hk
    rw [keys_map_sort] at hk
    rcases fallbackPass_keys previous acc0 k hk with hmem | hp
    · rcases forwardPass_keys c events none [] [] acc0.1 acc0.2 (by rw [hf]) k hmem
        with hmem0 | hls | ⟨e, he, hs, hid⟩
      · simp at hmem0
      · exact absurd hls (by simp)
      · exact Or.inl ⟨e, he, hs, hid⟩
    · exact Or.inr hp

/-- A context whose room reports no raw receipts. -/
def cQuietRoom : Ctx :=
  { myUserId := "@me:hs", ignoredUsers := [], showHiddenEventsInTimeline := true,
    haveTileForEvent := fun _ => true, shouldHideEvent := fun _ => false,
    highlightedEventId := none, readMarkerEventId := none,
    readMarkerVisible := false, showReadReceipts := true,
    room := some { receiptsForEvent := fun _ => [], getMember := fun _ => none } }

/-- A previous per-user cache pointing user `@u2:hs` at an event id that is
absent from the current log. -/
def prevCacheGone : ReceiptsByUser :=
  [("@u2:hs", ⟨"$gone", ⟨"@u2:hs", none, 100⟩⟩)]

/-- C1 counterexample: with a previous cache pointing at `$gone` (absent
from the log), the aggregation on the log `[eMsg]` returns a
`receiptsByEvent` carrying the key `$gone`, which is not the id of any
shown event of the current log — refuting the claim that the returned map
only ever keys on currently shown ids. -/
theorem receiptsByEvent_keys_counterexample :
    getReadReceiptsByShownEvent cQuietRoom [eMsg] prevCacheGone =
      some ([("$m", []), ("$gone", [⟨"@u2:hs", none, 100⟩])],
        [("@u2:hs", ⟨"$gone", ⟨"@u2:hs", none, 100⟩⟩)]) ∧
      (([eMsg].filter fun e => shouldShowEvent cQuietRoom e).map Event.id) = ["$m"] := by
  constructor
  · rfl
  · rfl

/-- C1 amended witness: the amended key property discharged at the same
concrete input, at key `$gone`. -/
theorem receiptsByEvent_keys_amended_witness :
    (∃ e ∈ [eMsg], shouldShowEvent cQuietRoom e = true ∧ e.id = "$gone") ∨
      ∃ p ∈ prevCacheGone, p.2.lastShownEventId = "$gone" := by
  refine receiptsByEvent_keys_amended cQuietRoom [eMsg] prevCacheGone
    ([("$m", []), ("$gone", [⟨"@u2:hs", none, 100⟩])])
    ([("@u2:hs", ⟨"$gone", ⟨"@u2:hs", none, 100⟩⟩)]) rfl "$gone" ?_
  decide

theorem mem_keys_of_alookup_isSome {α : Type} (k : String) (m : List (String × α))
    (h : (alookup k m).isSome) : k ∈ m.map Prod.fst := by
  induction m with
  | nil => simp [alookup] at h
  | cons p rest ih =>
    obtain ⟨k₀, v₀⟩ := p
    by_cases h0 : k₀ = k
    · simp [h0]
    · simp only [alookup, if_neg h0] at h
      simp [ih h]

theorem alookup_none_of_not_mem_keys {α : Type} (k : String) (m : List (String × α))
    (h : k ∉ m.map Prod.fst) : alookup k m = none := by
  cases ha : alookup k m with
  | none => rfl
  | some v =>
    exact absurd (mem_keys_of_alookup_isSome k m (by rw [ha]; rfl)) h

theorem alookup_append {α : Type} (k : String) (m1 m2 : List (String × α)) :
    alookup k (m1 ++ m2) =
      match alookup k m1 with
      | some v => some v
      | none => alookup k m2 := by
  induction m1 with
  | nil => rfl
  | cons p rest ih =>
    obtain ⟨k₀, v₀⟩ := p
    by_cases h0 : k₀ = k
    · simp [alookup, h0]
    · simp only [List.cons_append, alookup, if_neg h0]
      exact ih

theorem mem_rrInsert (r x : Receipt) (l : List Receipt) :
    r ∈ rrInsert x l ↔ r = x ∨ r ∈ l := by
  induction l with
  | nil => simp [rrInsert]
  | cons y ys ih =>
    by_cases hy : y.ts > x.ts
    · simp only [rrInsert, if_pos hy, List.mem_cons]
      rw [ih]
      tauto
    · simp only [rrInsert, if_neg hy, List.mem_cons]

theorem mem_rrSort (r : Receipt) (l : List Receipt) : r ∈ rrSort l ↔ r ∈ l := by
  induction l with
  | nil => simp [rrSort]
  | cons x xs ih =>
    simp only [rrSort, mem_rrInsert, List.mem_cons, ih]

theorem alookup_map_sort (k : String) (m : ReceiptsByEvent) :
    alookup k (m.map fun p => (p.1, rrSort p.2)) = (alookup k m).map rrSort := by
  induction m with
  | nil => rfl
  | cons p rest ih =>
    obtain ⟨k₀, v₀⟩ := p
    by_cases h0 : k₀ = k
    · simp [alookup, h0]
    · simp only [List.map_cons, alookup, if_neg h0]
      exact ih

/-- Keys added to the per-user cache by one event's receipt fold are
user ids of the event's receipts. -/
theorem foldl_upsert_user_keys (lsid : String) :
    ∀ (newReceipts : List Receipt) (m : ReceiptsByUser),
      ∀ u ∈ (newReceipts.foldl (fun m r => upsert r.userId ⟨lsid, r⟩ m) m).map Prod.fst,
        u ∈ m.map Prod.fst ∨ ∃ r ∈ newReceipts, r.userId = u := by
  intro newReceipts
  induction newReceipts with
  | nil =>
    intro m u hu
    exact Or.inl hu
  | cons r rs ih =>
    intro m u hu
    simp only [List.foldl_cons] at hu
    rcases ih (upsert r.userId ⟨lsid, r⟩ m) u hu with hmem | ⟨r', hr', hid⟩
    · rcases (mem_keys_upsert u r.userId _ m).mp hmem with rfl | hmem
      · exact Or.inr ⟨r, List.mem_cons_self r rs, rfl⟩
      · exact Or.inl hmem
    · exact Or.inr ⟨r', List.mem_cons_of_mem r hr', hid⟩

/-- Keys of the forward-pass per-user cache come from the initial cache or
from a receipt user id of some processed event. -/
theorem forwardPass_user_keys (c : Ctx) :
    ∀ (l : List Event) (ls : Option String) (rbe0 : ReceiptsByEvent)
      (rbu0 : ReceiptsByUser) (rbe1 : ReceiptsByEvent) (rbu1 : ReceiptsByUser),
      forwardPass c l ls rbe0 rbu0 = some (rbe1, rbu1) →
      ∀ u ∈ rbu1.map Prod.fst,
        u ∈ rbu0.map Prod.fst ∨
          ∃ e ∈ l, ∃ r ∈ (getReadReceiptsForEvent c e).getD [], r.userId = u := by
  intro l
  induction l with
  | nil =>
    intro ls rbe0 rbu0 rbe1 rbu1 h u hu
    rw [forwardPass_nil] at h
    obtain rfl : rbu0 = rbu1 := congrArg Prod.snd (Option.some.inj h)
    exact Or.inl hu
  | cons e rest ih =>
    intro ls rbe0 rbu0 rbe1 rbu1 h u hu
    have step : ∀ (lsid : String) (newReceipts : List Receipt),
        getReadReceiptsForEvent c e = some newReceipts →
        forwardPass c rest (some lsid)
            (upsert lsid (((alookup lsid rbe0).getD []) ++ newReceipts) rbe0)
            (newReceipts.foldl
              (fun m r => upsert r.userId ⟨lsid, r⟩ m) rbu0) = some (rbe1, rbu1) →
        (u ∈ rbu0.map Prod.fst ∨
          ∃ e' ∈ e :: rest, ∃ r ∈ (getReadReceiptsForEvent c e').getD [],
            r.userId = u) := by
      intro lsid newReceipts hrr hrec
      rcases ih (some lsid) _ _ rbe1 rbu1 hrec u hu with hmem | ⟨e', he', r, hr, hid⟩
      · rcases foldl_upsert_user_keys lsid _ rbu0 u hmem with hmem0 | ⟨r, hr, hid⟩
        · exact Or.inl hmem0
        · refine Or.inr ⟨e, List.mem_cons_self e rest, r, ?_, hid⟩
          rw [hrr]
          exact hr
      · exact Or.inr ⟨e', List.mem_cons_of_mem e he', r, hr, hid⟩
    by_cases hshow : shouldShowEvent c e = true
    · rw [forwardPass_cons_shown c e rest ls rbe0 rbu0 hshow] at h
      cases hrr : getReadReceiptsForEvent c e with
      | none =>
        rw [hrr] at h
        exact absurd h (by simp)
      | some newReceipts =>
        rw [hrr] at h
        exact step e.id newReceipts hrr (by simpa using h)
    · have hshow' : shouldShowEvent c e = false := by simpa using hshow
      match ls with
      | none =>
        rw [forwardPass_cons_hidden_none c e rest rbe0 rbu0 hshow'] at h
        rcases ih none _ _ rbe1 rbu1 h u hu with hmem | ⟨e', he', r, hr, hid⟩
        · exact Or.inl hmem
        · exact Or.inr ⟨e', List.mem_cons_of_mem e he', r, hr, hid⟩
      | some lsid =>
        rw [forwardPass_cons_hidden_some c e rest lsid rbe0 rbu0 hshow'] at h
        cases hrr : getReadReceiptsForEvent c e with
        | none =>
          rw [hrr] at h
          exact absurd h (by simp)
        | some newReceipts =>
          rw [hrr] at h
          exact step lsid newReceipts hrr (by simpa using h)

/-- An entry already present in the per-user cache survives the fallback
pass unchanged. -/
theorem fallbackPass_preserves_user_entry :
    ∀ (l : ReceiptsByUser) (acc : ReceiptsByEvent × ReceiptsByUser) (u : String)
      (entry : UserEntry), alookup u acc.2 = some entry →
      alookup u (fallbackPass l acc).2 = some entry := by
  intro l
  induction l with
  | nil =>
    intro acc u entry h
    exact h
  | cons p rest ih =>
    intro acc u entry h
    rw [fallbackPass_cons]
    apply ih
    unfold fallbackStep
    by_cases hpres : (alookup p.1 acc.2).isSome
    · rw [if_pos hpres]
      exact h
    · rw [if_neg hpres]
      simp only
      have hne : p.1 ≠ u := by
        intro hh
        rw [hh, h] at hpres
        exact hpres rfl
      rw [alookup_upsert_other _ _ _ _ hne]
      exact h

/-- A receipt already in an event bucket survives the fallback pass. -/
theorem fallbackPass_preserves_bucket_mem :
    ∀ (l : ReceiptsByUser) (acc : ReceiptsByEvent × ReceiptsByUser) (k : String)
      (b : List Receipt) (r : Receipt),
      alookup k acc.1 = some b → r ∈ b →
      ∃ b', alookup k (fallbackPass l acc).1 = some b' ∧ r ∈ b' := by
  intro l
  induction l with
  | nil =>
    intro acc k b r hb hr
    exact ⟨b, hb, hr⟩
  | cons p rest ih =>
    intro acc k b r hb hr
    rw [fallbackPass_cons]
    unfold fallbackStep
    by_cases hpres : (alookup p.1 acc.2).isSome
    · rw [if_pos hpres]
      exact ih acc k b r hb hr
    · rw [if_neg hpres]
      simp only
      by_cases hk : p.2.lastShownEventId = k
      · subst hk
        refine ih _ p.2.lastShownEventId ((alookup p.2.lastShownEventId acc.1).getD [] ++
          [p.2.receipt]) r ?_ ?_
        · exact alookup_upsert_same _ _ _
        · rw [hb]
          exact List.mem_append_left _ hr
      · refine ih _ k b r ?_ hr
        rw [alookup_upsert_other _ _ _ _ hk]
        exact hb

/-- User-cache keys never disappear during the fallback pass. -/
theorem fallbackPass_user_keys_monotone :
    ∀ (l : ReceiptsByUser) (acc : ReceiptsByEvent × ReceiptsByUser) (u : String),
      u ∈ acc.2.map Prod.fst → u ∈ (fallbackPass l acc).2.map Prod.fst := by
  intro l
  induction l with
  | nil =>
    intro acc u h
    exact h
  | cons p rest ih =>
    intro acc u h
    rw [fallbackPass_cons]
    apply ih
    unfold fallbackStep
    by_cases hpres : (alookup p.1 acc.2).isSome
    · rw [if_pos hpres]
      exact h
    · rw [if_neg hpres]
      simp only
      exact (mem_keys_upsert u p.1 _ acc.2).mpr (Or.inr h)

/-- Every user of the previous cache ends up in the fallback result. -/
theorem fallbackPass_covers :
    ∀ (l : ReceiptsByUser) (acc : ReceiptsByEvent × ReceiptsByUser) (u : String),
      u ∈ l.map Prod.fst → u ∈ (fallbackPass l acc).2.map Prod.fst := by
  intro l
  induction l with
  | nil =>
    intro acc u h
    simp at h
  | cons p rest ih =>
    intro acc u h
    rcases List.mem_cons.mp h with rfl | h
    · rw [fallbackPass_cons]
      apply fallbackPass_user_keys_monotone
      unfold fallbackStep
      by_cases hpres : (alookup p.1 acc.2).isSome
      · rw [if_pos hpres]
        exact mem_keys_of_alookup_isSome _ _ hpres
      · rw [if_neg hpres]
        simp only
        exact (mem_keys_upsert p.1 p.1 _ acc.2).mpr (Or.inl rfl)
    · rw [fallbackPass_cons]
      exact ih _ u h

/-- The carry property of the fallback pass: a cached user entry whose user
is absent from the freshly built cache is re-inserted verbatim, and its
receipt lands in the bucket of its cached `lastShownEventId`. -/
theorem fallbackPass_carries :
    ∀ (l : ReceiptsByUser) (acc : ReceiptsByEvent × ReceiptsByUser) (u : String)
      (entry : UserEntry), alookup u l = some entry → alookup u acc.2 = none →
      alookup u (fallbackPass l acc).2 = some entry ∧
        ∃ b, alookup entry.lastShownEventId (fallbackPass l acc).1 = some b ∧
          entry.receipt ∈ b := by
  intro l
  induction l with
  | nil =>
    intro acc u entry h _
    simp [alookup] at h
  | cons p rest ih =>
    intro acc u entry h habs
    rw [fallbackPass_cons]
    by_cases hpu : p.1 = u
    · subst hpu
      simp only [alookup, if_pos rfl] at h
      obtain rfl : p.2 = entry := Option.some.inj h
      have hstep : fallbackStep acc p =
          (upsert p.2.lastShownEventId
              ((alookup p.2.lastShownEventId acc.1).getD [] ++ [p.2.receipt]) acc.1,
            upsert p.1 ⟨p.2.lastShownEventId, p.2.receipt⟩ acc.2) := by
        unfold fallbackStep
        rw [if_neg (by rw [habs]; simp)]
      rw [hstep]
      constructor
      · apply fallbackPass_preserves_user_entry
        exact alookup_upsert_same _ _ _
      · apply fallbackPass_preserves_bucket_mem
        · exact alookup_upsert_same _ _ _
        · exact List.mem_append_right _ (List.mem_singleton.mpr rfl)
    · simp only [alookup, if_neg hpu] at h
      refine ih (fallbackStep acc p) u entry h ?_
      unfold fallbackStep
      by_cases hpres : (alookup p.1 acc.2).isSome
      · rw [if_pos hpres]
        exact habs
      · rw [if_neg hpres]
        simp only
        rw [alookup_upsert_other _ _ _ _ hpu]
        exact habs

/-- C4: the per-user receipt cache never shrinks: every user of the
previous cache is present in the new cache; and a user who produces no
receipts in the current pass keeps their cached
`{lastShownEventId, receipt}` entry verbatim in the new cache, with the
cached receipt also re-inserted into the bucket of the cached event id
(even when that id belongs to no event of the current log). -/
theorem receiptsByUser_never_shrinks (c : Ctx) (events : List Event)
    (previous : ReceiptsByUser) (rbe : ReceiptsByEvent) (rbu : ReceiptsByUser)
    (h : getReadReceiptsByShownEvent c events previous = some (rbe, rbu)) :
    (∀ u ∈ previous.map Prod.fst, u ∈ rbu.map Prod.fst) ∧
      (∀ (u : String) (entry : UserEntry), alookup u previous = some entry →
        (∀ e ∈ events, ∀ r ∈ (getReadReceiptsForEvent c e).getD [], r.userId ≠ u) →
        alookup u rbu = some entry ∧
          ∃ b, alookup entry.lastShownEventId rbe = some b ∧ entry.receipt ∈ b) := by
  unfold getReadReceiptsByShownEvent at h
  cases hf : forwardPass c events none [] [] with
  | none =>
    rw [hf] at h
    exact absurd h (by simp)
  | some acc0 =>
    rw [hf] at h
    simp only at h
    obtain ⟨hrbe, hrbu⟩ : ((fallbackPass previous acc0).1.map fun p => (p.1, rrSort p.2)) = rbe ∧
        (fallbackPass previous acc0).2 = rbu := by
      have := Option.some.inj h
      exact ⟨congrArg Prod.fst this, congrArg Prod.snd this⟩
    constructor
    · intro u hu
      rw [← hrbu]
      exact fallbackPass_covers previous acc0 u hu
    · intro u entry hprev hnone
      have habs : alookup u acc0.2 = none := by
        apply alookup_none_of_not_mem_keys
        intro hmem
        rcases forwardPass_user_keys c events none [] [] acc0.1 acc0.2
            (by rw [hf]) u hmem with h0 | ⟨e, he, r, hr, hid⟩
        · simp at h0
        · exact hnone e he r hr hid
      obtain ⟨hu, b, hb, hrb⟩ := fallbackPass_carries previous acc0 u entry hprev habs
      refine ⟨by rw [← hrbu]; exact hu, rrSort b, ?_, ?_⟩
      · rw [← hrbe, alookup_map_sort, hb]
        rfl
      · exact (mem_rrSort _ _).mpr hrb

/-- C4 witness: the superset and verbatim-carry properties at the concrete
input of the counterexample context (user `@u2:hs` produces no receipts
there and `$gone` is absent from the log). -/
theorem receiptsByUser_never_shrinks_witness :
    ("@u2:hs" ∈ (([("@u2:hs", ⟨"$gone", ⟨"@u2:hs", none, 100⟩⟩)] :
        ReceiptsByUser).map Prod.fst)) ∧
      alookup "@u2:hs" ([("@u2:hs", ⟨"$gone", ⟨"@u2:hs", none, 100⟩⟩)] :
        ReceiptsByUser) = some ⟨"$gone", ⟨"@u2:hs", none, 100⟩⟩ ∧
      (∃ b, alookup "$gone" ([("$m", []), ("$gone", [⟨"@u2:hs", none, 100⟩])] :
          ReceiptsByEvent) = some b ∧ (⟨"@u2:hs", none, 100⟩ : Receipt) ∈ b) := by
  have h := receiptsByUser_never_shrinks cQuietRoom [eMsg] prevCacheGone
    ([("$m", []), ("$gone", [⟨"@u2:hs", none, 100⟩])])
    ([("@u2:hs", ⟨"$gone", ⟨"@u2:hs", none, 100⟩⟩)]) rfl
  have h2 := h.2 "@u2:hs" ⟨"$gone", ⟨"@u2:hs", none, 100⟩⟩ (by decide)
    (by decide)
  exact ⟨by decide, h2.1, h2.2⟩

theorem fallbackStep_skip (acc : ReceiptsByEvent × ReceiptsByUser)
    (p : String × UserEntry) (h : (alookup p.1 acc.2).isSome) :
    fallbackStep acc p = acc := by
  unfold fallbackStep
  rw [if_pos h]

theorem fallbackPass_append (l1 l2 : ReceiptsByUser)
    (acc : ReceiptsByEvent × ReceiptsByUser) :
    fallbackPass (l1 ++ l2) acc = fallbackPass l2 (fallbackPass l1 acc) := by
  simp [fallbackPass, List.foldl_append]

theorem fallbackPass_all_present (l : ReceiptsByUser) :
    ∀ (acc : ReceiptsByEvent × ReceiptsByUser),
      (∀ p ∈ l, (alookup p.1 acc.2).isSome) → fallbackPass l acc = acc := by
  induction l with
  | nil =>
    intro acc _
    rfl
  | cons p rest ih =>
    intro acc h
    rw [fallbackPass_cons, fallbackStep_skip acc p (h p (List.mem_cons_self p rest))]
    exact ih acc fun q hq => h q (List.mem_cons_of_mem p hq)

/-- Processing a cache whose keys are fresh and distinct simply appends its
entries to the per-user cache. -/
theorem fallbackPass_snd_shape :
    ∀ (l : ReceiptsByUser) (acc : ReceiptsByEvent × ReceiptsByUser),
      (l.map Prod.fst).Nodup → (∀ p ∈ l, alookup p.1 acc.2 = none) →
      (fallbackPass l acc).2 = acc.2 ++ l := by
  intro l
  induction l with
  | nil =>
    intro acc _ _
    simp [fallbackPass_nil]
  | cons p rest ih =>
    intro acc hnd hfresh
    have hfp : alookup p.1 acc.2 = none := hfresh p (List.mem_cons_self p rest)
    have hstep : fallbackStep acc p =
        (upsert p.2.lastShownEventId
            ((alookup p.2.lastShownEventId acc.1).getD [] ++ [p.2.receipt]) acc.1,
          upsert p.1 ⟨p.2.lastShownEventId, p.2.receipt⟩ acc.2) := by
      unfold fallbackStep
      rw [if_neg (by rw [hfp]; simp)]
    have hnd2 : (p.1 :: rest.map Prod.fst).Nodup := by simpa using hnd
    have hnd' := List.nodup_cons.mp hnd2
    rw [fallbackPass_cons, hstep]
    have hsnd : (upsert p.1 ⟨p.2.lastShownEventId, p.2.receipt⟩ acc.2) = acc.2 ++ [p] := by
      rw [upsert_of_alookup_none _ _ _ hfp]
    rw [ih _ hnd'.2 ?_]
    · rw [hsnd]
      simp
    · intro q hq
      have hne : p.1 ≠ q.1 := by
        intro hh
        exact hnd'.1 (hh ▸ List.mem_map_of_mem Prod.fst hq)
      have hone : alookup q.1 ([p] : ReceiptsByUser) = none := by
        simp [alookup, hne]
      rw [hsnd, alookup_append, hfresh q (List.mem_cons_of_mem p hq), hone]

/-- With distinct keys, the fallback pass only ever acts on the entries
whose key is fresh with respect to the incoming per-user cache. -/
theorem fallbackPass_filter :
    ∀ (l : ReceiptsByUser) (acc : ReceiptsByEvent × ReceiptsByUser),
      (l.map Prod.fst).Nodup →
      fallbackPass l acc =
        fallbackPass (l.filter fun p => (alookup p.1 acc.2).isNone) acc := by
  intro l
  induction l with
  | nil =>
    intro acc _
    rfl
  | cons p rest ih =>
    intro acc hnd
    have hnd2 : (p.1 :: rest.map Prod.fst).Nodup := by simpa using hnd
    have hnd' := List.nodup_cons.mp hnd2
    by_cases hp : (alookup p.1 acc.2).isNone
    · rw [List.filter_cons_of_pos (by simpa using hp)]
      rw [fallbackPass_cons, fallbackPass_cons]
      rw [ih (fallbackStep acc p) hnd'.2]
      congr 1
      apply List.filter_congr
      intro q hq
      have hne : p.1 ≠ q.1 := by
        intro hh
        exact hnd'.1 (hh ▸ List.mem_map_of_mem Prod.fst hq)
      unfold fallbackStep
      by_cases hpres : (alookup p.1 acc.2).isSome
      · rw [if_pos hpres]
      · rw [if_neg hpres]
        simp only
        rw [alookup_upsert_other _ _ _ _ hne]
    · rw [List.filter_cons_of_neg (by simpa using hp)]
      have hsome : (alookup p.1 acc.2).isSome := by
        cases ha : alookup p.1 acc.2 with
        | none => rw [ha] at hp; exact absurd rfl hp
        | some v => rfl
      rw [fallbackPass_cons, fallbackStep_skip acc p hsome]
      exact ih acc hnd'.2

/-- C7: the receipt aggregation is idempotent — rerunning it on the same
log and receipt source, seeded with the per-user cache the first run
produced, returns the same `receiptsByEvent` and leaves the per-user
cache fixed. -/
theorem aggregation_idempotent (c : Ctx) (events : List Event)
    (previous : ReceiptsByUser) (hnd : (previous.map Prod.fst).Nodup)
    (rbe1 : ReceiptsByEvent) (rbu1 : ReceiptsByUser)
    (h1 : getReadReceiptsByShownEvent c events previous = some (rbe1, rbu1)) :
    getReadReceiptsByShownEvent c events rbu1 = some (rbe1, rbu1) := by
  unfold getReadReceiptsByShownEvent at h1 ⊢
  cases hf : forwardPass c events none [] [] with
  | none =>
    rw [hf] at h1
    exact absurd h1 (by simp)
  | some acc0 =>
    rw [hf] at h1
    simp only at h1 ⊢
    have hfix : fallbackPass rbu1 acc0 = fallbackPass previous acc0 := by
      have hrbu1 : rbu1 = (fallbackPass previous acc0).2 :=
        (congrArg Prod.snd (Option.some.inj h1)).symm
      have hfilter := fallbackPass_filter previous acc0 hnd
      have hP : ((previous.filter fun p => (alookup p.1 acc0.2).isNone).map
          Prod.fst).Nodup := by
        exact List.Nodup.sublist (List.Sublist.map Prod.fst (List.filter_sublist previous)) hnd
      have hfresh : ∀ p ∈ previous.filter fun p => (alookup p.1 acc0.2).isNone,
          alookup p.1 acc0.2 = none := by
        intro p hp
        have := (List.mem_filter.mp hp).2
        simpa using this
      have hshape := fallbackPass_snd_shape
        (previous.filter fun p => (alookup p.1 acc0.2).isNone) acc0 hP hfresh
      have hrbu1' : rbu1 = acc0.2 ++
          (previous.filter fun p => (alookup p.1 acc0.2).isNone) := by
        rw [hrbu1, hfilter, hshape]
      rw [hrbu1', fallbackPass_append]
      rw [fallbackPass_all_present acc0.2 acc0 ?_]
      · exact hfilter.symm
      · intro p hp
        exact alookup_isSome_of_mem p.1 p.2 acc0.2 hp
    rw [hfix]
    exact h1

/-- C7 witness: rerunning the aggregation seeded with the first run's
per-user cache reproduces the first run's result at a concrete input. -/
theorem aggregation_idempotent_witness :
    getReadReceiptsByShownEvent cQuietRoom [eMsg]
        [("@u2:hs", ⟨"$gone", ⟨"@u2:hs", none, 100⟩⟩)] =
      some ([("$m", []), ("$gone", [⟨"@u2:hs", none, 100⟩])],
        [("@u2:hs", ⟨"$gone", ⟨"@u2:hs", none, 100⟩⟩)]) :=
  aggregation_idempotent cQuietRoom [eMsg] prevCacheGone (by decide)
    ([("$m", []), ("$gone", [⟨"@u2:hs", none, 100⟩])])
    ([("@u2:hs", ⟨"$gone", ⟨"@u2:hs", none, 100⟩⟩)]) rfl

/-- The id of the nearest shown event at or before position `i` of the log
(per the visibility filter), with `ls` as the inherited value when no
shown event occurs up to `i`. -/
def nearestShownFrom (c : Ctx) (ls : Option String) (l : List Event) (i : Nat) :
    Option String :=
  match ((l.take (i + 1)).filter (shouldShowEvent c)).getLast? with
  | some e => some e.id
  | none => ls

/-- The id of the nearest preceding shown event for position `i` (the
event itself counts when it is shown); `none` when no shown event occurs
at or before `i`. -/
def nearestPrecedingShownId (c : Ctx) (events : List Event) (i : Nat) : Option String :=
  nearestShownFrom c none events i

/-- The receipts `_getReadReceiptsForEvent` yields for the event at
position `i`. -/
def receiptsAt (c : Ctx) (l : List Event) (i : Nat) : List Receipt :=
  match l[i]? with
  | some e => (getReadReceiptsForEvent c e).getD []
  | none => []

/-- Whether some position of the log attributes its receipts to key `k`. -/
def attributesKey (c : Ctx) (ls : Option String) (l : List Event) (k : String) : Bool :=
  (List.range l.length).any fun i => nearestShownFrom c ls l i = some k

/-- The receipts attributed to key `k`: the concatenation, in log order, of
the receipts of every event whose nearest preceding shown event id is `k`. -/
def bucketSpec (c : Ctx) (ls : Option String) (l : List Event) (k : String) :
    List Receipt :=
  ((List.range l.length).filter fun i => nearestShownFrom c ls l i = some k).flatMap
    fun i => receiptsAt c l i

theorem getLast?_cons_eq {α : Type} (a : α) (l : List α) :
    (a :: l).getLast? = match l.getLast? with
      | some x => some x
      | none => some a := by
  cases l with
  | nil => rfl
  | cons b l' =>
    rw [List.getLast?_cons_cons]
    have h : ((b :: l').getLast?).isSome := List.getLast?_isSome.mpr (by simp)
    obtain ⟨x, hx⟩ := Option.isSome_iff_exists.mp h
    rw [hx]

theorem flatMap_map {α β γ : Type} (f : α → β) (g : β → List γ) (l : List α) :
    (l.map f).flatMap g = l.flatMap (fun x => g (f x)) := by
  induction l with
  | nil => rfl
  | cons a l ih => simp [ih]

theorem nearestShownFrom_zero (c : Ctx) (ls : Option String) (e : Event)
    (rest : List Event) :
    nearestShownFrom c ls (e :: rest) 0 =
      (if shouldShowEvent c e then some e.id else ls) := by
  unfold nearestShownFrom
  by_cases hshow : shouldShowEvent c e
  · simp [hshow]
  · simp [hshow]

theorem nearestShownFrom_succ (c : Ctx) (ls : Option String) (e : Event)
    (rest : List Event) (i : Nat) :
    nearestShownFrom c ls (e :: rest) (i + 1) =
      nearestShownFrom c (if shouldShowEvent c e then some e.id else ls) rest i := by
  unfold nearestShownFrom
  have htake : (e :: rest).take (i + 1 + 1) = e :: rest.take (i + 1) := rfl
  rw [htake]
  by_cases hshow : shouldShowEvent c e
  · rw [List.filter_cons_of_pos (by simpa using hshow), getLast?_cons_eq, if_pos hshow]
    cases hg : ((rest.take (i + 1)).filter (shouldShowEvent c)).getLast? with
    | none => rfl
    | some x => rfl
  · rw [List.filter_cons_of_neg (by simpa using hshow), if_neg hshow]

theorem receiptsAt_zero (c : Ctx) (e : Event) (rest : List Event) :
    receiptsAt c (e :: rest) 0 = (getReadReceiptsForEvent c e).getD [] := by
  simp [receiptsAt]

theorem receiptsAt_succ (c : Ctx) (e : Event) (rest : List Event) (i : Nat) :
    receiptsAt c (e :: rest) (i + 1) = receiptsAt c rest i := by
  simp [receiptsAt]

theorem attributesKey_nil (c : Ctx) (ls : Option String) (k : String) :
    attributesKey c ls [] k = false := rfl

theorem bucketSpec_nil (c : Ctx) (ls : Option String) (k : String) :
    bucketSpec c ls [] k = [] := rfl


theorem attributesKey_cons (c : Ctx) (ls : Option String) (e : Event)
    (rest : List Event) (k : String) :
    attributesKey c ls (e :: rest) k =
      (decide ((if shouldShowEvent c e then some e.id else ls) = some k) ||
        attributesKey c (if shouldShowEvent c e then some e.id else ls) rest k) := by
  unfold attributesKey
  rw [show (e :: rest).length = rest.length + 1 from rfl, List.range_succ_eq_map]
  rw [List.any_cons, List.any_map]
  have h0 : (decide (nearestShownFrom c ls (e :: rest) 0 = some k)) =
      decide ((if shouldShowEvent c e then some e.id else ls) = some k) := by
    rw [nearestShownFrom_zero]
  have hfun : ((fun i => decide (nearestShownFrom c ls (e :: rest) i = some k)) ∘ Nat.succ)
      = (fun i => decide (nearestShownFrom c
          (if shouldShowEvent c e then some e.id else ls) rest i = some k)) := by
    funext i
    simp only [Function.comp_apply, Nat.succ_eq_add_one]
    rw [nearestShownFrom_succ]
  rw [h0, hfun]

theorem bucketSpec_cons (c : Ctx) (ls : Option String) (e : Event)
    (rest : List Event) (k : String) :
    bucketSpec c ls (e :: rest) k =
      (if (if shouldShowEvent c e then some e.id else ls) = some k
        then (getReadReceiptsForEvent c e).getD [] else []) ++
        bucketSpec c (if shouldShowEvent c e then some e.id else ls) rest k := by
  unfold bucketSpec
  rw [show (e :: rest).length = rest.length + 1 from rfl, List.range_succ_eq_map]
  rw [List.filter_cons]
  have hfun : ((fun i => decide (nearestShownFrom c ls (e :: rest) i = some k)) ∘ Nat.succ)
      = (fun i => decide (nearestShownFrom c
          (if shouldShowEvent c e then some e.id else ls) rest i = some k)) := by
    funext i
    simp only [Function.comp_apply, Nat.succ_eq_add_one]
    rw [nearestShownFrom_succ]
  have hrec : (fun x => receiptsAt c (e :: rest) (Nat.succ x)) =
      fun i => receiptsAt c rest i := by
    funext i
    exact receiptsAt_succ c e rest i
  by_cases h0 : nearestShownFrom c ls (e :: rest) 0 = some k
  · rw [if_pos (by simpa using h0)]
    rw [nearestShownFrom_zero] at h0
    rw [if_pos h0]
    rw [List.flatMap_cons, receiptsAt_zero]
    congr 1
    rw [List.filter_map, flatMap_map, hfun, hrec]
  · rw [if_neg (by simpa using h0)]
    rw [nearestShownFrom_zero] at h0
    rw [if_neg h0]
    rw [List.nil_append, List.filter_map, flatMap_map, hfun, hrec]

theorem bucketSpec_eq_nil_of_attr_false (c : Ctx) (ls : Option String)
    (l : List Event) (k : String) (h : attributesKey c ls l k = false) :
    bucketSpec c ls l k = [] := by
  unfold bucketSpec
  have hfil : (List.range l.length).filter
      (fun i => decide (nearestShownFrom c ls l i = some k)) = [] := by
    rw [List.filter_eq_nil_iff]
    intro i hi
    unfold attributesKey at h
    rw [List.any_eq_false] at h
    exact fun hh => h i hi hh
  rw [hfil]
  rfl


/-- Full characterization of the forward-pass buckets: the bucket of key
`k` holds the prior contents followed by the receipts, in log order, of
exactly the events whose nearest preceding shown id is `k`. -/
theorem forwardPass_char (c : Ctx) (hroom : c.room.isSome) :
    ∀ (l : List Event) (ls : Option String) (rbe : ReceiptsByEvent)
      (rbu : ReceiptsByUser),
      ∃ rbe' rbu', forwardPass c l ls rbe rbu = some (rbe', rbu') ∧
        ∀ k, alookup k rbe' =
          if attributesKey c ls l k = true
          then some ((alookup k rbe).getD [] ++ bucketSpec c ls l k)
          else alookup k rbe := by
  intro l
  induction l with
  | nil =>
    intro ls rbe rbu
    refine ⟨rbe, rbu, forwardPass_nil c ls rbe rbu, ?_⟩
    intro k
    rw [attributesKey_nil]
    simp
  | cons e rest ih =>
    intro ls rbe rbu
    obtain ⟨room, hr⟩ := Option.isSome_iff_exists.mp hroom
    obtain ⟨nr, hrr⟩ : ∃ nr, getReadReceiptsForEvent c e = some nr := by
      unfold getReadReceiptsForEvent
      rw [hr]
      exact ⟨_, rfl⟩
    have key : ∀ (lsid : String),
        (if shouldShowEvent c e then some e.id else ls) = some lsid →
        ∃ rbe' rbu',
          forwardPass c rest (some lsid)
            (upsert lsid ((alookup lsid rbe).getD [] ++ nr) rbe)
            (nr.foldl (fun m r => upsert r.userId ⟨lsid, r⟩ m) rbu) =
              some (rbe', rbu') ∧
          ∀ k, alookup k rbe' =
            if attributesKey c ls (e :: rest) k = true
            then some ((alookup k rbe).getD [] ++ bucketSpec c ls (e :: rest) k)
            else alookup k rbe := by
      intro lsid hls
      obtain ⟨rbe', rbu', hfp, hchar⟩ := ih (some lsid)
        (upsert lsid ((alookup lsid rbe).getD [] ++ nr) rbe)
        (nr.foldl (fun m r => upsert r.userId ⟨lsid, r⟩ m) rbu)
      refine ⟨rbe', rbu', hfp, ?_⟩
      intro k
      rw [hchar k, attributesKey_cons, bucketSpec_cons, hls, hrr]
      simp only [Option.getD_some]
      by_cases hk : lsid = k
      · subst hk
        rw [alookup_upsert_same]
        simp only [Option.getD_some]
        by_cases hattr : attributesKey c (some lsid) rest lsid = true
        · rw [if_pos hattr]
          simp [List.append_assoc]
        · rw [if_neg hattr]
          rw [bucketSpec_eq_nil_of_attr_false c (some lsid) rest lsid
            (by simpa using hattr)]
          simp
      · rw [alookup_upsert_other _ _ _ _ hk]
        have hd : decide (some lsid = some k) = false := by simp [hk]
        rw [hd, Bool.false_or, if_neg (by simp [hk] : ¬(some lsid = some k)),
          List.nil_append]
    by_cases hshow : shouldShowEvent c e = true
    · obtain ⟨rbe', rbu', hfp, hchar⟩ := key e.id (by rw [if_pos hshow])
      refine ⟨rbe', rbu', ?_, hchar⟩
      rw [forwardPass_cons_shown c e rest ls rbe rbu hshow, hrr]
      exact hfp
    · have hshow' : shouldShowEvent c e = false := by simpa using hshow
      cases ls with
      | some lsid =>
        obtain ⟨rbe', rbu', hfp, hchar⟩ := key lsid (by rw [if_neg (by simp [hshow'])])
        refine ⟨rbe', rbu', ?_, hchar⟩
        rw [forwardPass_cons_hidden_some c e rest lsid rbe rbu hshow', hrr]
        exact hfp
      | none =>
        obtain ⟨rbe', rbu', hfp, hchar⟩ := ih none rbe rbu
        have hlsn : (if shouldShowEvent c e then some e.id else (none : Option String))
            = none := by
          rw [if_neg (by simp [hshow'])]
        refine ⟨rbe', rbu', ?_, ?_⟩
        · rw [forwardPass_cons_hidden_none c e rest rbe rbu hshow']
          exact hfp
        · intro k
          rw [hchar k, attributesKey_cons, bucketSpec_cons, hlsn]
          rw [show (decide ((none : Option String) = some k)) = false from by simp,
            Bool.false_or]
          rw [if_neg (fun h => Option.noConfusion h), List.nil_append]

/-- C3: in the single forward pass over the full (unfiltered) log, every
event's receipts — shown or hidden — are appended to the bucket of the
nearest preceding shown event (`nearestPrecedingShownId`, the id of the
last event accepted by the visibility filter at or before the event's
position); an event preceded by no shown event contributes to no bucket.
Concretely: each bucket `k` holds exactly the concatenation, in log
order, of the receipts of the events attributed to `k`, and keys with no
attributed event are absent. -/
theorem receipts_fold_to_nearest_preceding_shown (c : Ctx) (events : List Event)
    (hroom : c.room.isSome) :
    ∃ rbe rbu, forwardPass c events none [] [] = some (rbe, rbu) ∧
      ∀ k, alookup k rbe =
        if ((List.range events.length).any
            fun i => nearestPrecedingShownId c events i = some k) = true
        then some (((List.range events.length).filter
            fun i => nearestPrecedingShownId c events i = some k).flatMap
              fun i => receiptsAt c events i)
        else none := by
  obtain ⟨rbe, rbu, hfp, hchar⟩ := forwardPass_char c hroom events none [] []
  refine ⟨rbe, rbu, hfp, ?_⟩
  intro k
  rw [hchar k]
  have hcond : ((List.range events.length).any
      fun i => nearestPrecedingShownId c events i = some k) =
      attributesKey c none events k := rfl
  have hbody : (((List.range events.length).filter
      fun i => nearestPrecedingShownId c events i = some k).flatMap
        fun i => receiptsAt c events i) = bucketSpec c none events k := rfl
  rw [hcond, hbody]
  by_cases hattr : attributesKey c none events k = true
  · rw [if_pos hattr, if_pos hattr]
    show some ([] ++ bucketSpec c none events k) = some (bucketSpec c none events k)
    rw [List.nil_append]
  · rw [if_neg hattr, if_neg hattr]
    rfl

/-- A log with one shown message and one hidden (non-message) event that
carries a read receipt. -/
def eShown : Event :=
  { id := "$s1", senderId := some "@a:hs", sender := none, type := "m.room.message",
    ts := 0, redacted := false, inReplyTo := none, status := none,
    associatedStatus := none }

def eHidden : Event :=
  { id := "$h2", senderId := some "@a:hs", sender := none, type := "m.widget",
    ts := 1, redacted := false, inReplyTo := none, status := none,
    associatedStatus := none }

/-- A context whose room reports one read receipt, on the hidden event. -/
def cFold : Ctx :=
  { myUserId := "@me:hs", ignoredUsers := [], showHiddenEventsInTimeline := false,
    haveTileForEvent := fun _ => true, shouldHideEvent := fun _ => false,
    highlightedEventId := none, readMarkerEventId := none,
    readMarkerVisible := false, showReadReceipts := true,
    room := some
      { receiptsForEvent := fun e =>
          if e.id = "$h2" then [⟨some "@u2:hs", "m.read", some 100⟩] else [],
        getMember := fun _ => none } }

/-- C3 witness: the characterization applied at a concrete context, and a
concrete check that the hidden event's receipt folded onto the preceding
shown event's bucket. -/
theorem receipts_fold_witness :
    cFold.room.isSome = true ∧
      (∃ rbe rbu, forwardPass cFold [eShown, eHidden] none [] [] = some (rbe, rbu) ∧
        ∀ k, alookup k rbe =
          if ((List.range ([eShown, eHidden] : List Event).length).any
              fun i => nearestPrecedingShownId cFold [eShown, eHidden] i = some k) = true
          then some (((List.range ([eShown, eHidden] : List Event).length).filter
              fun i => nearestPrecedingShownId cFold [eShown, eHidden] i = some k).flatMap
                fun i => receiptsAt cFold [eShown, eHidden] i)
          else none) ∧
      forwardPass cFold [eShown, eHidden] none [] [] =
        some ([("$s1", [⟨"@u2:hs", none, 100⟩])],
          [("@u2:hs", ⟨"$s1", ⟨"@u2:hs", none, 100⟩⟩)]) :=
  ⟨rfl, receipts_fold_to_nearest_preceding_shown cFold [eShown, eHidden] rfl, rfl⟩

/-- `const isSentState = s => !s || s === 'sent'` (line 597). -/
def isSentState (s : Option String) : Bool := s.isNone || s == some "sent"

/-- The `isLastSuccessful` computation of `_getTilesForEvent`
(lines 596-618): own status sent/absent, next (shown) event not yet sent,
overridden to false when a further-ahead tiled event distinct from the
immediate next event is sent, and gated on the sender being the local
user. -/
def isLastSuccessfulFlag (c : Ctx) (mxEv : Event)
    (nextEvent nextEventWithTile : Option Event) : Bool :=
  let isSent := isSentState mxEv.associatedStatus
  let hasNextEvent : Bool :=
    match nextEvent with
    | some ne => shouldShowEvent c ne
    | none => false
  let flag1 : Bool :=
    if !hasNextEvent && isSent then true
    else
      match nextEvent with
      | some ne => hasNextEvent && isSent && !(isSentState ne.associatedStatus)
      | none => false
  let flag2 : Bool :=
    match nextEventWithTile with
    | none => flag1
    | some nwt =>
      if some nwt ≠ nextEvent ∧ isSentState nwt.associatedStatus = true then false
      else flag1
  flag2 && (mxEv.senderId == some c.myUserId)

/-- `_getNextEventInfo(arr, i)` (lines 474-486): the immediate next event
and the next event accepted by the visibility filter. -/
def getNextEventInfo (c : Ctx) (arr : List Event) (i : Nat) :
    Option Event × Option Event :=
  (arr[i + 1]?, (arr.drop (i + 1)).find? (shouldShowEvent c))

/-- The last event of the log accepted by the visibility filter (the
reverse scan of `_getEventTiles`, lines 503-523). -/
def lastShownEvent (c : Ctx) (events : List Event) : Option Event :=
  (events.filter (shouldShowEvent c)).getLast?

/-- `lastShownNonLocalEchoIndex` (lines 505-523): the greatest index of a
shown event with no send status (`-1` when none exists). -/
def lastShownNonLocalEchoIndex (c : Ctx) (events : List Event) : Int :=
  match ((List.range events.length).filter fun i =>
      match events[i]? with
      | some e => shouldShowEvent c e && e.status.isNone
      | none => false).getLast? with
  | some i => (i : Int)
  | none => -1

/-- One element of the render list assembled by `_getEventTiles`. -/
inductive RenderItem where
  | tile (level : Nat) (mxEvent : Event) (continuation : Bool) (last : Bool)
      (lastSuccessful : Bool) (readReceipts : Option (List Receipt))
  | readMarker (eventId : String) (hrVisible : Bool)
  | ghostMarker (eventId : String)
deriving DecidableEq, Repr

/-- `_readMarkerForEvent(eventId, isLastEvent)` (lines 397-454): an anchor
node (with the hr only when visible) when the id is the current
read-marker id, a ghost node when the id is in the ghost set, nothing
otherwise. -/
def readMarkerForEvent (c : Ctx) (ghosts : List (Option String))
    (eventId : String) (isLastEvent : Bool) : Option RenderItem :=
  let visible := !isLastEvent && c.readMarkerVisible
  if c.readMarkerEventId = some eventId then
    some (RenderItem.readMarker eventId visible)
  else if (some eventId) ∈ ghosts then
    some (RenderItem.ghostMarker eventId)
  else none

/-- The direct sub-events (replies) of an event (lines 621-623). -/
def directSubevents (events : List Event) (mxEv : Event) : List Event :=
  events.filter fun e =>
    match e.inReplyTo with
    | some (some pid) => pid = mxEv.id
    | _ => false

/-- `_getTilesForEvent` (lines 569-673): the event's tile followed by the
recursively rendered reply sub-events at the next nesting level. The JS
recursion is unbounded (it would overflow on a cyclic reply graph); the
`fuel` parameter makes it total, and every call here supplies fuel
exceeding the depth of any acyclic reply chain. -/
def getTilesForEvent (c : Ctx) (allEvents : List Event) (rbe : ReceiptsByEvent) :
    Nat → Option Event → Event → Bool → Option Event → Option Event → Nat →
      List RenderItem
  | 0, _, _, _, _, _, _ => []
  | fuel + 1, prevEvent, mxEv, last, nextEvent, nextEventWithTile, level =>
    RenderItem.tile level mxEv
        (shouldFormContinuation c.haveTileForEvent prevEvent mxEv) last
        (isLastSuccessfulFlag c mxEv nextEvent nextEventWithTile)
        (alookup mxEv.id rbe) ::
      (directSubevents allEvents mxEv).flatMap
        (fun e => getTilesForEvent c allEvents rbe fuel none e false none none (level + 1))

/-- The forward loop of `_getEventTiles` (lines 538-557): per event, an
optional tile block (when the visibility filter accepts it), then the
read-marker check — performed for every event, shown or hidden. -/
def getEventTilesLoop (c : Ctx) (events : List Event) (rbe : ReceiptsByEvent)
    (lastShown : Option Event) (idx : Int) (ghosts : List (Option String)) :
    Nat → Nat → Option Event → List RenderItem
  | 0, _, _ => []
  | fuel + 1, i, prevEvent =>
    match events[i]? with
    | none => []
    | some mxEv =>
      let tiles :=
        if shouldShowEvent c mxEv then
          getTilesForEvent c events rbe (events.length + 1) prevEvent mxEv
            (decide (lastShown = some mxEv)) (getNextEventInfo c events i).1
            (getNextEventInfo c events i).2 0
        else []
      let prevEvent' := if shouldShowEvent c mxEv then some mxEv else prevEvent
      tiles ++ (readMarkerForEvent c ghosts mxEv.id (decide ((i : Int) ≥ idx))).toList ++
        getEventTilesLoop c events rbe lastShown idx ghosts fuel (i + 1) prevEvent'

/-- `_getEventTiles()` (lines 492-567): find the last-shown boundaries, run
the receipt aggregation when configured, then assemble the render list;
`none` models the exception propagated from the aggregation. -/
def getEventTiles (c : Ctx) (events : List Event)
    (previousReceiptsByUser : ReceiptsByUser) (ghosts : List (Option String)) :
    Option (List RenderItem) :=
  match (if c.showReadReceipts
      then (getReadReceiptsByShownEvent c events previousReceiptsByUser).map Prod.fst
      else some []) with
  | none => none
  | some rbe =>
    some (getEventTilesLoop c events rbe (lastShownEvent c events)
      (lastShownNonLocalEchoIndex c events) ghosts events.length 0 none)

/-- A run of three self-authored shown events with statuses
[sent, sent, sending]. -/
def mkSelf (id : String) (ts : Int) (st : Option String) : Event :=
  { id := id, senderId := some "@me:hs", sender := some ⟨"@me:hs", "Me", none⟩,
    type := "m.room.message", ts := ts, redacted := false, inReplyTo := none,
    status := none, associatedStatus := st }

/-- A context in which every event is shown and the local user is
`@me:hs`. -/
def cSelf : Ctx :=
  { myUserId := "@me:hs", ignoredUsers := [], showHiddenEventsInTimeline := true,
    haveTileForEvent := fun _ => true, shouldHideEvent := fun _ => false,
    highlightedEventId := none, readMarkerEventId := none,
    readMarkerVisible := false, showReadReceipts := false, room := none }

def selfRun : List Event :=
  [mkSelf "$p1" 0 (some "sent"), mkSelf "$p2" 1 (some "sent"),
   mkSelf "$p3" 2 (some "sending")]

/-- C2: the "last successful" flag is true iff the sender is the local
user, the event's own status is absent or "sent", the immediate next
event (when shown) is not yet sent, and no further-ahead tiled event
distinct from the immediate next event is sent. In particular, for the
run [sent, sent, not-yet-sent] of self-authored shown events, only the
middle event — the one immediately preceding the unsent one — is
flagged. -/
theorem lastSuccessful_characterization :
    (∀ (c : Ctx) (mxEv : Event) (nextEvent nextEventWithTile : Option Event),
      isLastSuccessfulFlag c mxEv nextEvent nextEventWithTile = true ↔
        (mxEv.senderId = some c.myUserId ∧
          isSentState mxEv.associatedStatus = true ∧
          (∀ ne, nextEvent = some ne → shouldShowEvent c ne = true →
            isSentState ne.associatedStatus = false) ∧
          (∀ nwt, nextEventWithTile = some nwt → nextEventWithTile ≠ nextEvent →
            isSentState nwt.associatedStatus = false))) ∧
    ((List.range 3).map (fun i =>
        match selfRun[i]? with
        | some e => isLastSuccessfulFlag cSelf e (getNextEventInfo cSelf selfRun i).1
            (getNextEventInfo cSelf selfRun i).2
        | none => false) = [false, true, false]) := by
  constructor
  · intro c mxEv nextEvent nextEventWithTile
    cases nextEvent with
    | none =>
      cases nextEventWithTile with
      | none =>
        simp [isLastSuccessfulFlag] <;> tauto
      | some nwt =>
        by_cases hn : isSentState nwt.associatedStatus = true
        · simp [isLastSuccessfulFlag, hn] <;> tauto
        · simp [isLastSuccessfulFlag, hn] <;> tauto
    | some ne =>
      by_cases hs : shouldShowEvent c ne = true
      · cases nextEventWithTile with
        | none =>
          simp [isLastSuccessfulFlag, hs] <;> tauto
        | some nwt =>
          by_cases heq : nwt = ne
          · subst heq
            simp [isLastSuccessfulFlag, hs] <;> tauto
          · by_cases hn : isSentState nwt.associatedStatus = true
            · simp [isLastSuccessfulFlag, hs, hn, heq] <;> tauto
            · simp [isLastSuccessfulFlag, hs, hn, heq] <;> tauto
      · have hs' : shouldShowEvent c ne = false := by simpa using hs
        cases nextEventWithTile with
        | none =>
          simp [isLastSuccessfulFlag, hs'] <;> tauto
        | some nwt =>
          by_cases heq : nwt = ne
          · subst heq
            simp [isLastSuccessfulFlag, hs'] <;> tauto
          · by_cases hn : isSentState nwt.associatedStatus = true
            · simp [isLastSuccessfulFlag, hs', hn, heq] <;> tauto
            · simp [isLastSuccessfulFlag, hs', hn, heq] <;> tauto
  · decide

/-- C2 witness: the characterization applied at the middle event of the
concrete run, with its clauses discharged there. -/
theorem lastSuccessful_characterization_witness :
    isLastSuccessfulFlag cSelf (mkSelf "$p2" 1 (some "sent"))
      (getNextEventInfo cSelf selfRun 1).1 (getNextEventInfo cSelf selfRun 1).2
      = true := by
  refine (lastSuccessful_characterization.1 cSelf (mkSelf "$p2" 1 (some "sent"))
    (getNextEventInfo cSelf selfRun 1).1 (getNextEventInfo cSelf selfRun 1).2).mpr
    ⟨rfl, rfl, ?_, ?_⟩
  · intro ne hne hs
    have h2 : (getNextEventInfo cSelf selfRun 1).1 =
        some (mkSelf "$p3" 2 (some "sending")) := by decide
    rw [h2] at hne
    obtain rfl : ne = mkSelf "$p3" 2 (some "sending") := (Option.some.inj hne).symm
    decide
  · intro nwt hnwt hneq
    exact absurd rfl hneq

/-- The last shown event strictly before position `i`: the value the
assembly loop's `prevEvent` accumulator holds when reaching `i`. -/
def prevShownBefore (c : Ctx) (events : List Event) (i : Nat) : Option Event :=
  ((events.take i).filter (shouldShowEvent c)).getLast?

theorem prevShownBefore_succ (c : Ctx) (events : List Event) (i : Nat) (mxEv : Event)
    (he : events[i]? = some mxEv) :
    prevShownBefore c events (i + 1) =
      if shouldShowEvent c mxEv then some mxEv else prevShownBefore c events i := by
  unfold prevShownBefore
  rw [List.take_succ, he]
  simp only [Option.toList_some]
  rw [List.filter_append]
  by_cases hs : shouldShowEvent c mxEv = true
  · rw [if_pos hs, List.filter_cons_of_pos (by simpa using hs)]
    simp [List.getLast?_concat]
  · have hs' : shouldShowEvent c mxEv = false := by simpa using hs
    rw [if_neg (by simp [hs']), List.filter_cons_of_neg (by simpa using hs')]
    simp

/-- The render-list block contributed at position `i`: the tiles of the
event when shown (with `prevEvent` resolved to the last shown event
before `i`), followed by the read-marker node when one anchors there. -/
def blockAt (c : Ctx) (events : List Event) (rbe : ReceiptsByEvent)
    (lastShown : Option Event) (idx : Int) (ghosts : List (Option String))
    (i : Nat) : List RenderItem :=
  match events[i]? with
  | none => []
  | some mxEv =>
    (if shouldShowEvent c mxEv then
      getTilesForEvent c events rbe (events.length + 1) (prevShownBefore c events i)
        mxEv (decide (lastShown = some mxEv)) (getNextEventInfo c events i).1
        (getNextEventInfo c events i).2 0
     else []) ++
      (readMarkerForEvent c ghosts mxEv.id (decide ((i : Int) ≥ idx))).toList

theorem getEventTilesLoop_blocks (c : Ctx) (events : List Event)
    (rbe : ReceiptsByEvent) (lastShown : Option Event) (idx : Int)
    (ghosts : List (Option String)) :
    ∀ (fuel i : Nat) (prevEvent : Option Event),
      events.length ≤ fuel + i → prevEvent = prevShownBefore c events i →
      getEventTilesLoop c events rbe lastShown idx ghosts fuel i prevEvent =
        (((List.range events.length).drop i).map
          (blockAt c events rbe lastShown idx ghosts)).flatten := by
  intro fuel
  induction fuel with
  | zero =>
    intro i prevEvent hle _
    have hdrop : (List.range events.length).drop i = [] := by
      apply List.drop_eq_nil_of_le
      simpa using hle
    rw [hdrop]
    rfl
  | succ fuel ih =>
    intro i prevEvent hle hprev
    cases he : events[i]? with
    | none =>
      have hge : events.length ≤ i := by
        by_contra hlt
        push_neg at hlt
        rw [List.getElem?_eq_getElem hlt] at he
        exact Option.noConfusion he
      have hdrop : (List.range events.length).drop i = [] := by
        apply List.drop_eq_nil_of_le
        simpa using hge
      rw [hdrop]
      simp [getEventTilesLoop, he]
    | some mxEv =>
      have hlt : i < events.length := by
        by_contra h
        push_neg at h
        rw [List.getElem?_eq_none (by simpa using h)] at he
        exact Option.noConfusion he
      have hdrop : (List.range events.length).drop i =
          i :: (List.range events.length).drop (i + 1) := by
        rw [List.drop_eq_getElem_cons (by simpa using hlt)]
        simp
      rw [hdrop, List.map_cons, List.flatten_cons]
      have hrec := ih (i + 1)
        (if shouldShowEvent c mxEv then some mxEv else prevEvent)
        (by omega)
        (by rw [prevShownBefore_succ c events i mxEv he, hprev])
      simp only [getEventTilesLoop, he]
      rw [hrec]
      simp only [blockAt, he, hprev]

/-- C9, amended: the assembled render list is exactly the concatenation,
in input log order, of one block per log position — the event's tiles
when it is shown (each tile block being the parent tile followed directly
by its recursively rendered reply sub-events, with the continuation
computed against the last shown event before that position), followed by
the read-marker or ghost node anchored at that event. The read-marker
check runs after every event, shown or hidden (the claim's "only after
shown events" fails; see the counterexample). -/
theorem assembly_order (c : Ctx) (events : List Event)
    (previous : ReceiptsByUser) (ghosts : List (Option String))
    (out : List RenderItem)
    (h : getEventTiles c events previous ghosts = some out) :
    ∃ rbe : ReceiptsByEvent,
      (c.showReadReceipts = true →
        (getReadReceiptsByShownEvent c events previous).map Prod.fst = some rbe) ∧
      (c.showReadReceipts = false → rbe = []) ∧
      out = ((List.range events.length).map
        (blockAt c events rbe (lastShownEvent c events)
          (lastShownNonLocalEchoIndex c events) ghosts)).flatten := by
  unfold getEventTiles at h
  cases hsrr : c.showReadReceipts with
  | false =>
    rw [hsrr] at h
    rw [if_neg Bool.false_ne_true] at h
    refine ⟨[], by intro hh; exact Bool.noConfusion hh, fun _ => rfl, ?_⟩
    have hloop := getEventTilesLoop_blocks c events [] (lastShownEvent c events)
      (lastShownNonLocalEchoIndex c events) ghosts events.length 0 none
      (by omega) rfl
    rw [List.drop_zero] at hloop
    have hout : getEventTilesLoop c events [] (lastShownEvent c events)
        (lastShownNonLocalEchoIndex c events) ghosts events.length 0 none = out :=
      Option.some.inj h
    rw [← hout, hloop]
  | true =>
    rw [hsrr] at h
    rw [if_pos rfl] at h
    cases hagg : (getReadReceiptsByShownEvent c events previous).map Prod.fst with
    | none =>
      rw [hagg] at h
      exact absurd h (by simp)
    | some rbe =>
      rw [hagg] at h
      refine ⟨rbe, fun _ => rfl, by intro hh; exact Bool.noConfusion hh, ?_⟩
      have hloop := getEventTilesLoop_blocks c events rbe (lastShownEvent c events)
        (lastShownNonLocalEchoIndex c events) ghosts events.length 0 none
        (by omega) rfl
      rw [List.drop_zero] at hloop
      have hout : getEventTilesLoop c events rbe (lastShownEvent c events)
          (lastShownNonLocalEchoIndex c events) ghosts events.length 0 none = out :=
        Option.some.inj h
      rw [← hout, hloop]

/-- A hidden event (non-message type) carrying the read marker. -/
def eHiddenRM : Event :=
  { id := "$hm", senderId := some "@a:hs", sender := none, type := "m.widget",
    ts := 0, redacted := false, inReplyTo := none, status := none,
    associatedStatus := none }

/-- A context whose read marker sits on the hidden event. -/
def cHiddenMarker : Ctx :=
  { myUserId := "@me:hs", ignoredUsers := [], showHiddenEventsInTimeline := false,
    haveTileForEvent := fun _ => true, shouldHideEvent := fun _ => false,
    highlightedEventId := none, readMarkerEventId := some "$hm",
    readMarkerVisible := true, showReadReceipts := false, room := none }

/-- C9 counterexample: on a log whose only event is hidden, the assembly
still emits a read-marker node for it — the read-marker check is not
restricted to shown events. -/
theorem assembly_marker_after_hidden_counterexample :
    getEventTiles cHiddenMarker [eHiddenRM] [] [] =
        some [RenderItem.readMarker "$hm" false] ∧
      shouldShowEvent cHiddenMarker eHiddenRM = false := by
  constructor
  · rfl
  · rfl

/-- C9 witness: the amended order characterization applied at the
concrete hidden-marker input. -/
theorem assembly_order_witness :
    ∃ rbe : ReceiptsByEvent,
      (cHiddenMarker.showReadReceipts = true →
        (getReadReceiptsByShownEvent cHiddenMarker [eHiddenRM] []).map Prod.fst
          = some rbe) ∧
      (cHiddenMarker.showReadReceipts = false → rbe = []) ∧
      [RenderItem.readMarker "$hm" false] =
        ((List.range ([eHiddenRM] : List Event).length).map
          (blockAt cHiddenMarker [eHiddenRM] rbe
            (lastShownEvent cHiddenMarker [eHiddenRM])
            (lastShownNonLocalEchoIndex cHiddenMarker [eHiddenRM]) [])).flatten :=
  assembly_order cHiddenMarker [eHiddenRM] [] []
    [RenderItem.readMarker "$hm" false] rfl

/-- C8: when the current read-marker id equals the id of the event at
position `i`, the marker builder — invoked with the `isLastEvent` flag
the assembly computes (`i ≥ lastShownNonLocalEchoIndex`) — always emits
the anchor node, with the full-width rule visible iff
`readMarkerVisible` holds and the event lies strictly before the
last-shown-non-local-echo position; at or beyond that position (in
particular exactly at the tail) the anchor is emitted with the rule
suppressed. -/
theorem readMarker_anchor_emitted (c : Ctx) (events : List Event)
    (ghosts : List (Option String)) (i : Nat) (e : Event)
    (he : events[i]? = some e) (hrm : c.readMarkerEventId = some e.id) :
    readMarkerForEvent c ghosts e.id
        (decide ((i : Int) ≥ lastShownNonLocalEchoIndex c events)) =
      some (RenderItem.readMarker e.id
        (c.readMarkerVisible &&
          decide ((i : Int) < lastShownNonLocalEchoIndex c events))) ∧
      ((i : Int) ≥ lastShownNonLocalEchoIndex c events →
        readMarkerForEvent c ghosts e.id
            (decide ((i : Int) ≥ lastShownNonLocalEchoIndex c events)) =
          some (RenderItem.readMarker e.id false)) := by
  have hmain : readMarkerForEvent c ghosts e.id
      (decide ((i : Int) ≥ lastShownNonLocalEchoIndex c events)) =
      some (RenderItem.readMarker e.id
        (c.readMarkerVisible &&
          decide ((i : Int) < lastShownNonLocalEchoIndex c events))) := by
    unfold readMarkerForEvent
    rw [if_pos hrm]
    congr 1
    congr 1
    by_cases hge : (i : Int) ≥ lastShownNonLocalEchoIndex c events
    · simp [hge, not_lt.mpr hge]
    · simp [hge, lt_of_not_ge hge, Bool.and_comm]
  refine ⟨hmain, fun hge => ?_⟩
  rw [hmain]
  have : decide ((i : Int) < lastShownNonLocalEchoIndex c events) = false := by
    simp [not_lt.mpr hge]
  rw [this, Bool.and_false]

/-- A context whose read marker sits on the tail shown event. -/
def cMarkerTail : Ctx :=
  { myUserId := "@me:hs", ignoredUsers := [], showHiddenEventsInTimeline := true,
    haveTileForEvent := fun _ => true, shouldHideEvent := fun _ => false,
    highlightedEventId := none, readMarkerEventId := some "$m",
    readMarkerVisible := true, showReadReceipts := false, room := none }

/-- C8 witness: at the tail event of a one-event log the anchor is emitted
with the rule suppressed even though `readMarkerVisible` is on. -/
theorem readMarker_anchor_emitted_witness :
    ([eMsg] : List Event)[0]? = some eMsg ∧
      cMarkerTail.readMarkerEventId = some eMsg.id ∧
      readMarkerForEvent cMarkerTail [] eMsg.id
          (decide ((0 : Int) ≥ lastShownNonLocalEchoIndex cMarkerTail [eMsg])) =
        some (RenderItem.readMarker "$m" false) := by
  refine ⟨rfl, rfl, ?_⟩
  have h := readMarker_anchor_emitted cMarkerTail [eMsg] [] 0 eMsg rfl rfl
  exact (h.2 (by decide))
